import Mathlib

/-!
# Verification of the Mazegame path-planning subsystem

Shallow embedding of the path-planning code of the Mazegame repository:

* `maze_generator.py` — randomized depth-first maze carving (`MazeGen` below);
* `algorithm_runner.py` — the `AlgorithmRunner` planner: default BFS solver,
  frontier exploration, external-solver loading and fallback, stepwise moves;
* `sample_algorithm.py` — the sample external solver: A* search, frontier
  scoring with cosine alignment, exploration helpers.

Conventions:

* Positions are `(x, y)` integer pairs, exactly as in the Python sources.
* A maze is embedded as a total function; `m y x` mirrors the source access
  `maze[y][x]`.  All theorems that depend on cell accesses carry the bounds
  hypotheses under which the Python code performs only in-bounds accesses.
* Python's unbounded loops (BFS queues, recursive carving) are embedded with
  an explicit fuel parameter; every invariant below is proved for all fuel
  values, and concrete evaluations use a fuel that is large enough for the
  loop to run to completion.
* `random.shuffle` is modelled by an abstract supply of permutations of the
  four directions, one permutation per call.
-/

namespace Mazegame

/-- A position `(x, y)`, as used throughout the Python sources. -/
abbrev Pos := ℤ × ℤ

/-- Manhattan distance `abs(x1-x2) + abs(y1-y2)` (`sample_algorithm.py`,
`manhattan_distance`; the same expression appears inline in
`algorithm_runner.py`). -/
def manhattan (a b : Pos) : ℤ := |a.1 - b.1| + |a.2 - b.2|

/-- Consecutive positions of the list are 4-adjacent (Manhattan distance 1):
no multi-cell jumps. -/
def Chain1 (p : List Pos) : Prop := List.Chain' (fun a b => manhattan a b = 1) p

/-- Reachability by unit steps through cells accepted by `ok`. -/
def reachable_via (ok : Pos → Bool) (a b : Pos) : Prop :=
  Relation.ReflTransGen (fun u v => manhattan u v = 1 ∧ ok v = true) a b

/-! ## Maze generator (`maze_generator.py`)

The numpy array `self.maze` (boolean, `True` = wall) is embedded as a total
function `ℤ → ℤ → Bool`; `g y x` mirrors `self.maze[y, x]`.  Cells outside the
`height × width` rectangle are never written by the code and stay `true`. -/

namespace MazeGen

/-- Boolean wall grid: `g y x = true` means the cell at column `x`, row `y`
is a wall (`np.ones((height, width), dtype=bool)`). -/
abbrev BGrid := ℤ → ℤ → Bool

/-- Assignment `g[y, x] = v`, as a functional update. -/
def setCell (g : BGrid) (y x : ℤ) (v : Bool) : BGrid :=
  fun b a => if b = y ∧ a = x then v else g b a

/-- The four carving directions in source order
`[(0, 1), (1, 0), (0, -1), (-1, 0)]` (Down, Right, Up, Left). -/
def dirs4 : Fin 4 → Pos
  | 0 => (0, 1)
  | 1 => (1, 0)
  | 2 => (0, -1)
  | 3 => (-1, 0)

/-- Shuffling `random.shuffle(directions)` modelled by applying an abstract permutation
of the four indices. -/
def shuffledDirs (p : Equiv.Perm (Fin 4)) : List Pos :=
  [dirs4 (p 0), dirs4 (p 1), dirs4 (p 2), dirs4 (p 3)]

mutual

/-- Method `MazeGenerator._carve_paths(x, y)`: shuffle the four directions and try
each of them.  `supply k` is the permutation used by the `k`-th shuffle call;
`fuel` bounds the recursion depth (the Python recursion always terminates
because each recursive call happens right after a wall cell was carved). -/
def carvePaths (w h : ℤ) (supply : ℕ → Equiv.Perm (Fin 4))
    (fuel : ℕ) (g : BGrid) (k : ℕ) (x y : ℤ) : BGrid × ℕ :=
  match fuel with
  | 0 => (g, k)
  | fuel' + 1 => carveStep w h supply fuel' (shuffledDirs (supply k)) g (k + 1) x y
termination_by (fuel, 0)

/-- The `for dx, dy in directions` loop body of `_carve_paths`: if the cell
two steps away is in bounds and still a wall, carve the wall between and the
new cell, recurse from the new cell, then continue with the next direction. -/
def carveStep (w h : ℤ) (supply : ℕ → Equiv.Perm (Fin 4))
    (fuel : ℕ) (ds : List Pos) (g : BGrid) (k : ℕ) (x y : ℤ) : BGrid × ℕ :=
  match ds with
  | [] => (g, k)
  | d :: rest =>
    if 0 ≤ x + d.1 * 2 ∧ x + d.1 * 2 < w ∧ 0 ≤ y + d.2 * 2 ∧ y + d.2 * 2 < h ∧
        g (y + d.2 * 2) (x + d.1 * 2) = true then
      let g1 := setCell g (y + d.2) (x + d.1) false
      let g2 := setCell g1 (y + d.2 * 2) (x + d.1 * 2) false
      let r := carvePaths w h supply fuel g2 k (x + d.1 * 2) (y + d.2 * 2)
      carveStep w h supply fuel rest r.1 r.2 x y
    else
      carveStep w h supply fuel rest g k x y
termination_by (fuel, ds.length + 1)

end

/-- Method `MazeGenerator.generate()`: all-wall grid, open the start cell, carve
recursively from `(0, 0)`, then force the top-left and bottom-right cells
open. -/
def generate (w h : ℤ) (supply : ℕ → Equiv.Perm (Fin 4)) (fuel : ℕ) : BGrid :=
  let g0 : BGrid := fun _ _ => true
  let g1 := setCell g0 0 0 false
  let g2 := (carvePaths w h supply fuel g1 0 0 0).1
  let g3 := setCell g2 0 0 false
  setCell g3 (h - 1) (w - 1) false

/-- A cell is open (traversable) when it is not a wall. -/
def OpenCell (g : BGrid) (p : Pos) : Prop := g p.2 p.1 = false

/-- One traversal step: move to a 4-adjacent open cell. -/
def GStep (g : BGrid) (a b : Pos) : Prop := manhattan a b = 1 ∧ OpenCell g b

/-- Reachability along 4-connected open cells. -/
def GReach (g : BGrid) (a b : Pos) : Prop := Relation.ReflTransGen (GStep g) a b

/-- The connectivity invariant of the carving: every open cell is reachable
from `(0, 0)`. -/
def Inv (g : BGrid) : Prop := ∀ p : Pos, OpenCell g p → GReach g (0, 0) p

end MazeGen

/-! ## The planner (`algorithm_runner.py`)

The numeric maze matrix (0 = path, 1 = wall, 2 = start, 3 = goal, 4‑11 =
powerups) is embedded as a total function; `m y x` mirrors `maze[y][x]`.
`_get_visible_maze` returns `np.copy(self.maze)` (plus debug printing), i.e.
the full maze, so it is embedded as the identity. -/

namespace Runner

/-- Numeric maze matrix; `m y x` is `maze[y][x]`. -/
abbrev Maze := ℤ → ℤ → ℤ

/-- An external `solve_maze(visible_maze, start_pos, goal_pos)` callable.
`Except Unit` models a raised Python exception. -/
abbrev SolveFn := Maze → Pos → Pos → Except Unit (List Pos)

/-- The mutable state of an `AlgorithmRunner` instance (`__init__`). -/
structure AlgorithmRunner where
  maze : Maze
  width : ℤ                            -- maze_size[0]
  height : ℤ                           -- maze_size[1]
  custom_algorithm : Option SolveFn    -- None initially
  path : List Pos                      -- []
  current_path_index : ℕ               -- 0
  loaded_algorithm : Bool              -- False
  visited_cells : List Pos             -- set(); only membership is used
  vision_range : ℤ                     -- 4

/-- Method `is_cell_visible(x, y, player_x, player_y)`: the cell was visited, or its
Manhattan distance from the player is `≤ vision_range * 1.5`.  For integers,
`dx + dy ≤ 1.5 * v` is exactly `2 * (dx + dy) ≤ 3 * v`. -/
def is_cell_visible (vis : List Pos) (vr : ℤ) (x y px py : ℤ) : Bool :=
  ((x, y) ∈ vis : Bool) || decide (2 * (|x - px| + |y - py|) ≤ 3 * vr)

/-- The direction list `[(1, 0), (0, 1), (-1, 0), (0, -1)]` used by
`_default_algorithm` and `_explore_toward_goal`. -/
def directions : List Pos := [(1, 0), (0, 1), (-1, 0), (0, -1)]

/-- The admission test of the default BFS (line 179‑181): in bounds and not a
wall. -/
def bfs_ok (mz : Maze) (w h : ℤ) (n : Pos) : Bool :=
  decide (0 ≤ n.1) && decide (n.1 < w) && decide (0 ≤ n.2) && decide (n.2 < h) &&
    decide (mz n.2 n.1 ≠ 1)

/-- The admission test of the exploration BFS (line 261‑265): additionally the
cell must be visible from the start. -/
def explore_ok (mz : Maze) (w h : ℤ) (vis : List Pos) (vr : ℤ) (sp : Pos) (n : Pos) : Bool :=
  bfs_ok mz w h n && is_cell_visible vis vr n.1 n.2 sp.1 sp.2

/-- The BFS bookkeeping dictionary `visited`, mapping a cell to its parent
(`None` for the start).  Python dicts keep insertion order; only key
membership and lookup are used. -/
abbrev PMap := List (Pos × Option Pos)

/-- Path reconstruction (lines 164‑172): follow parents from `c` back to the
start, then reverse.  The list is built directly in final (reversed) order.
`fuel` bounds the loop; the maps produced by the BFS below always reach the
start in at most `m.length` steps.  A missing key (`KeyError` in Python) or a
`None` parent on a non-start cell yields `[]`. -/
def rebuildPath (m : PMap) (s : Pos) : ℕ → Pos → List Pos
  | 0, _ => []
  | fuel + 1, c =>
    if c = s then [s]
    else
      match m.lookup c with
      | some (some par) => rebuildPath m s fuel par ++ [c]
      | _ => []

/-- The `for dx, dy in directions` expansion loop shared by the two BFS
versions (lines 174‑184 and 256‑267): each admissible unvisited neighbor is
appended to the queue and recorded in the parent map. -/
def expandDirs (ok : Pos → Bool) (c : Pos) :
    List Pos → List Pos × PMap → List Pos × PMap
  | [], st => st
  | d :: rest, (q, m) =>
    let n : Pos := (c.1 + d.1, c.2 + d.2)
    if ok n = true ∧ m.lookup n = none then
      expandDirs ok c rest (q ++ [n], m ++ [(n, some c)])
    else
      expandDirs ok c rest (q, m)

/-- The BFS `while queue` loop.  With `gate = false` this is the main BFS of
`_default_algorithm` (return the reconstructed path as soon as the target is
popped); with `gate = true` it is the frontier BFS of `_explore_toward_goal`,
which returns the reconstructed path only when it has more than one element
(`if len(path) > 1`), and otherwise keeps searching.  Exhausted queue or fuel
yields `[]` (Python leaves the loop and falls through). -/
def bfsLoop (ok : Pos → Bool) (gate : Bool) (s target : Pos) :
    ℕ → List Pos → PMap → List Pos
  | 0, _, _ => []
  | _ + 1, [], _ => []
  | fuel + 1, c :: rest, m =>
    let p := rebuildPath m s (m.length + 1) c
    if c = target ∧ (gate = false ∨ 1 < p.length) then p
    else
      let st := expandDirs ok c directions (rest, m)
      bfsLoop ok gate s target fuel st.1 st.2

/-- The frontier scan of `_explore_toward_goal` (lines 200‑220): every
non-wall cell with at least one in-bounds, visible, non-wall neighbor,
together with its Manhattan distance to the goal, in row-major scan order. -/
def frontier_cells (mz : Maze) (w h : ℤ) (vis : List Pos) (vr : ℤ)
    (sp gp : Pos) : List (Pos × ℤ) :=
  ((List.range h.toNat).map (fun yn =>
    (List.range w.toNat).filterMap (fun xn =>
      let x : ℤ := (xn : ℤ)
      let y : ℤ := (yn : ℤ)
      if mz y x = 1 then none
      else if directions.any (fun d =>
          decide (0 ≤ x + d.1) && decide (x + d.1 < w) &&
          decide (0 ≤ y + d.2) && decide (y + d.2 < h) &&
          is_cell_visible vis vr (x + d.1) (y + d.2) sp.1 sp.2 &&
          decide (mz (y + d.2) (x + d.1) ≠ 1)) then
        some ((x, y), |x - gp.1| + |y - gp.2|)
      else none))).flatten

/-- The `for frontier_x, frontier_y, _ in frontiers[:3]` loop (lines
232‑271): run the gated BFS toward each candidate frontier and return the
first non-empty result. -/
def try_frontiers (mz : Maze) (w h : ℤ) (vis : List Pos) (vr : ℤ) (sp : Pos) :
    List (Pos × ℤ) → List Pos
  | [] => []
  | (fp, _) :: rest =>
    let p := bfsLoop (explore_ok mz w h vis vr sp) true sp fp
      (w.toNat * h.toNat + 2) [sp] [(sp, none)]
    if p = [] then try_frontiers mz w h vis vr sp rest else p

/-- The final fallback of `_explore_toward_goal` (lines 274‑279): the first
direction whose neighbor is in bounds and not a wall. -/
def first_valid_step (mz : Maze) (w h : ℤ) (sp : Pos) : List Pos → Option Pos
  | [] => none
  | d :: rest =>
    let n : Pos := (sp.1 + d.1, sp.2 + d.2)
    if bfs_ok mz w h n = true then some n
    else first_valid_step mz w h sp rest

/-- Method `AlgorithmRunner._explore_toward_goal`: collect frontiers; if none, stay
put; otherwise sort them by Manhattan distance to the goal (Python's stable
`sort(key=lambda f: f[2])`), try a BFS to each of the first three, and fall
back to a single adjacent step (or staying put). -/
def explore_toward_goal (mz : Maze) (w h : ℤ) (vis : List Pos) (vr : ℤ)
    (sp gp : Pos) : List Pos :=
  let frontiers := frontier_cells mz w h vis vr sp gp
  if frontiers = [] then [sp]
  else
    let sorted := frontiers.mergeSort (fun a b => decide (a.2 ≤ b.2))
    let best := try_frontiers mz w h vis vr sp (sorted.take 3)
    if best = [] then
      match first_valid_step mz w h sp directions with
      | some n => [sp, n]
      | none => [sp]
    else best

/-- Method `AlgorithmRunner._default_algorithm`: reject wall endpoints, explore when
the goal is not visible, otherwise run the BFS.  (`_get_visible_maze` copies
the full maze, so `visible_maze[...]` and `self.maze[...]` agree.) -/
def default_algorithm (mz : Maze) (w h : ℤ) (vis : List Pos) (vr : ℤ)
    (sp gp : Pos) : List Pos :=
  if mz sp.2 sp.1 = 1 ∨ mz gp.2 gp.1 = 1 then []
  else if ¬ is_cell_visible vis vr gp.1 gp.2 sp.1 sp.2 = true then
    explore_toward_goal mz w h vis vr sp gp
  else
    bfsLoop (bfs_ok mz w h) false sp gp (w.toNat * h.toNat + 2) [sp] [(sp, none)]

/-- Method `_default_algorithm` on a runner state. -/
def run_default (r : AlgorithmRunner) (sp gp : Pos) : List Pos :=
  default_algorithm r.maze r.width r.height r.visited_cells r.vision_range sp gp

/-- Method `AlgorithmRunner.compute_path`: use the loaded external callable if any,
falling back to the default algorithm when it raises; otherwise use the
default algorithm.  In every case the new path is installed and the cursor is
reset to 0.  (The Python method also returns `True` in all branches.) -/
def compute_path (r : AlgorithmRunner) (sp gp : Pos) : AlgorithmRunner :=
  match r.loaded_algorithm, r.custom_algorithm with
  | true, some f =>
    match f r.maze sp gp with
    | .ok p => { r with path := p, current_path_index := 0 }
    | .error _ => { r with path := run_default r sp gp, current_path_index := 0 }
  | _, _ => { r with path := run_default r sp gp, current_path_index := 0 }

/-- The tail of `get_next_move` (lines 302‑310): read the next path cell,
return its delta from the current position, advance the cursor. -/
def advance (r : AlgorithmRunner) (cx cy : ℤ) : Option (ℤ × ℤ) × AlgorithmRunner :=
  let nxt := r.path.getD (r.current_path_index + 1) (0, 0)
  (some (nxt.1 - cx, nxt.2 - cy),
   { r with current_path_index := r.current_path_index + 1 })

/-- Method `AlgorithmRunner.get_next_move(current_x, current_y, goal_pos)`.  When the
cursor is at the end, the code recomputes the path; `compute_path` already
resets the cursor to 0, so the explicit `self.current_path_index = 0` is a
no-op here.  The cursor test `idx >= len(path) - 1` runs only when the path
is non-empty, so natural subtraction is faithful. -/
def get_next_move (r0 : AlgorithmRunner) (cx cy : ℤ) (gp : Pos) :
    Option (ℤ × ℤ) × AlgorithmRunner :=
  let r1 := if r0.path = [] then compute_path r0 (cx, cy) gp else r0
  if r1.path = [] then (none, r1)
  else if r1.path.length - 1 ≤ r1.current_path_index then
    let r2 := compute_path r1 (cx, cy) gp
    if r2.path.length ≤ 1 then (none, r2) else advance r2 cx cy
  else advance r1 cx cy

/-- The three possible outcomes of `importlib` loading in
`load_algorithm_from_file`: the import/exec raised, the module has no
`solve_maze` attribute, or it provides one. -/
inductive LoadResult where
  | loadFail
  | noEntry
  | entry (f : SolveFn)

/-- Method `AlgorithmRunner.load_algorithm_from_file`: bind the callable and return
`True` on success; print and return `False` (leaving all state unchanged) on
a missing entry point or any load error. -/
def load_algorithm_from_file (r : AlgorithmRunner) : LoadResult → Bool × AlgorithmRunner
  | .loadFail => (false, r)
  | .noEntry => (false, r)
  | .entry f => (true, { r with custom_algorithm := some f, loaded_algorithm := true })

/-- Method `AlgorithmRunner.reset`. -/
def reset (r : AlgorithmRunner) : AlgorithmRunner :=
  { r with path := [], current_path_index := 0 }

/-- The path that a `compute_path` call installs, as a function of the
planning-relevant state (the active strategy and its inputs); `compute_path`
neither reads nor changes these fields, which is what the replanning and
idempotence analyses rest on. -/
def planned (r : AlgorithmRunner) (sp gp : Pos) : List Pos :=
  match r.loaded_algorithm, r.custom_algorithm with
  | true, some f =>
    match f r.maze sp gp with
    | .ok p => p
    | .error _ => run_default r sp gp
  | _, _ => run_default r sp gp

/-- The keys (visited cells) of a parent map. -/
def keys (m : PMap) : List Pos := m.map Prod.fst

/-- The parent maps produced by the BFS loops: the start is recorded first
with no parent, and each later cell is recorded with an already-recorded
adjacent parent, an admission check, and no duplicate key. -/
inductive GoodMap (ok : Pos → Bool) (s : Pos) : PMap → Prop
  | base : GoodMap ok s [(s, none)]
  | snoc {m : PMap} {c n : Pos} : GoodMap ok s m → c ∈ keys m → n ∉ keys m →
      manhattan c n = 1 → ok n = true → GoodMap ok s (m ++ [(n, some c)])

end Runner

/-! ## The sample external solver (`sample_algorithm.py`)

The Python code computes `height = len(maze)` and `width = len(maze[0])` from
the list-of-lists matrix; with the functional embedding the dimensions are
passed explicitly.  `heapq` holds `(priority, position, path)` tuples ordered
lexicographically (integer priority, then position, then path); since every
position is pushed at most once, the minimum of that order is unique, so the
heap is faithfully modelled by extracting the least element. -/

namespace Sample

open Runner (Maze)

/-- Function `manhattan_distance(pos1, pos2)`. -/
def manhattan_distance (a b : Pos) : ℤ := |a.1 - b.1| + |a.2 - b.2|

/-- The direction list `[(0, 1), (1, 0), (0, -1), (-1, 0)]` used throughout
`sample_algorithm.py` (note: a different order than `algorithm_runner.py`). -/
def sample_directions : List Pos := [(0, 1), (1, 0), (0, -1), (-1, 0)]

/-- Function `is_valid_move(maze, pos)`: in bounds and not a wall (any value except 1
is passable). -/
def is_valid_move (m : Maze) (w h : ℤ) (p : Pos) : Bool :=
  decide (0 ≤ p.1) && decide (p.1 < w) && decide (0 ≤ p.2) && decide (p.2 < h) &&
    decide (m p.2 p.1 ≠ 1)

/-- A heap entry `(priority, (x, y), path)` of `a_star_search`. -/
abbrev Entry := ℤ × Pos × List Pos

/-- Lexicographic comparison of positions, as Python compares `(x, y)`
tuples. -/
def posLt (a b : Pos) : Bool := decide (a.1 < b.1) || (decide (a.1 = b.1) && decide (a.2 < b.2))

/-- Lexicographic comparison of coordinate lists, as Python compares lists. -/
def pathLt : List Pos → List Pos → Bool
  | [], [] => false
  | [], _ :: _ => true
  | _ :: _, [] => false
  | a :: xs, b :: ys => if a = b then pathLt xs ys else posLt a b

/-- The tuple order used by `heapq` on `(priority, position, path)`. -/
def entryLt (a b : Entry) : Bool :=
  if a.1 = b.1 then
    if a.2.1 = b.2.1 then pathLt a.2.2 b.2.2 else posLt a.2.1 b.2.1
  else decide (a.1 < b.1)

/-- The least entry of `e :: l` in the `entryLt` order (leftmost among
equals, which cannot occur since positions are distinct). -/
def minEntry : Entry → List Entry → Entry
  | e, [] => e
  | e, x :: rest => minEntry (if entryLt x e = true then x else e) rest

/-- Operation `heapq.heappop`: remove and return the least entry. -/
def popMin : List Entry → Option (Entry × List Entry)
  | [] => none
  | e :: rest =>
    let b := minEntry e rest
    some (b, (e :: rest).erase b)

/-- The expansion loop of `a_star_search` (lines 207‑217): push each valid
unvisited neighbor with priority `len(new_path) + manhattan(next, goal)` and
mark it visited immediately. -/
def aStarExpand (m : Maze) (w h : ℤ) (gp cur : Pos) (path : List Pos) :
    List Pos → List Entry × List Pos → List Entry × List Pos
  | [], st => st
  | d :: rest, (q, vis) =>
    let n : Pos := (cur.1 + d.1, cur.2 + d.2)
    if is_valid_move m w h n = true ∧ n ∉ vis then
      let newPath := path ++ [n]
      aStarExpand m w h gp cur path rest
        (q ++ [((newPath.length : ℤ) + manhattan_distance n gp, n, newPath)], vis ++ [n])
    else
      aStarExpand m w h gp cur path rest (q, vis)

/-- The `while queue` loop of `a_star_search`.  An exhausted queue (or fuel)
yields the `[start_pos]` sentinel. -/
def aStarLoop (m : Maze) (w h : ℤ) (sp gp : Pos) :
    ℕ → List Entry → List Pos → List Pos
  | 0, _, _ => [sp]
  | fuel + 1, q, vis =>
    match popMin q with
    | none => [sp]
    | some ((_, cur, path), rest) =>
      if cur = gp then path
      else
        let st := aStarExpand m w h gp cur path sample_directions (rest, vis)
        aStarLoop m w h sp gp fuel st.1 st.2

/-- Function `a_star_search(maze, start_pos, goal_pos)`. -/
def a_star_search (m : Maze) (w h : ℤ) (sp gp : Pos) : List Pos :=
  aStarLoop m w h sp gp (w.toNat * h.toNat + 2)
    [(manhattan_distance sp gp, sp, [sp])] [sp]

/-- The `while queue` loop of `bfs_path` (lines 309‑328): a plain FIFO BFS
whose queue carries whole paths; `None` when the queue (or fuel) runs out. -/
def bfsPathLoop (m : Maze) (w h : ℤ) (gp : Pos) :
    ℕ → List (Pos × List Pos) → List Pos → Option (List Pos)
  | 0, _, _ => none
  | _ + 1, [], _ => none
  | fuel + 1, (cur, path) :: rest, vis =>
    if cur = gp then some path
    else
      let st := sample_directions.foldl
        (fun (st : List (Pos × List Pos) × List Pos) d =>
          let n : Pos := (cur.1 + d.1, cur.2 + d.2)
          if is_valid_move m w h n = true ∧ n ∉ st.2 then
            (st.1 ++ [(n, path ++ [n])], st.2 ++ [n])
          else st)
        (rest, vis)
      bfsPathLoop m w h gp fuel st.1 st.2

/-- Function `bfs_path(maze, start_pos, goal_pos)`. -/
def bfs_path (m : Maze) (w h : ℤ) (sp gp : Pos) : Option (List Pos) :=
  bfsPathLoop m w h gp (w.toNat * h.toNat + 2) [(sp, [sp])] [sp]

/-- Function `find_frontiers(maze, width, height)`: open cells with at least one
out-of-bounds or wall neighbor, in row-major scan order. -/
def find_frontiers (m : Maze) (w h : ℤ) : List Pos :=
  ((List.range h.toNat).map (fun yn =>
    (List.range w.toNat).filterMap (fun xn =>
      let x : ℤ := (xn : ℤ)
      let y : ℤ := (yn : ℤ)
      if m y x = 1 then none
      else if sample_directions.any (fun d =>
          !(decide (0 ≤ x + d.1) && decide (x + d.1 < w) &&
            decide (0 ≤ y + d.2) && decide (y + d.2 < h)) ||
          decide (m (y + d.2) (x + d.1) = 1)) then
        some (x, y)
      else none))).flatten

/-- Function `find_all_powerups(maze, width, height)`: every `(value, position)` with
`4 ≤ value ≤ 11`, in row-major scan order (the per-type counting only feeds
debug printing). -/
def find_all_powerups (m : Maze) (w h : ℤ) : List (ℤ × Pos) :=
  ((List.range h.toNat).map (fun yn =>
    (List.range w.toNat).filterMap (fun xn =>
      let x : ℤ := (xn : ℤ)
      let y : ℤ := (yn : ℤ)
      if 4 ≤ m y x ∧ m y x ≤ 11 then some (m y x, (x, y)) else none))).flatten

/-- Function `find_any_valid_move(maze, start_pos)`: first an adjacent powerup cell,
then any adjacent valid cell, else stay in place. -/
def find_any_valid_move (m : Maze) (w h : ℤ) (sp : Pos) : List Pos :=
  match sample_directions.find? (fun d =>
      is_valid_move m w h (sp.1 + d.1, sp.2 + d.2) &&
      decide (4 ≤ m (sp.2 + d.2) (sp.1 + d.1)) &&
      decide (m (sp.2 + d.2) (sp.1 + d.1) ≤ 11)) with
  | some d => [sp, (sp.1 + d.1, sp.2 + d.2)]
  | none =>
    match sample_directions.find? (fun d =>
        is_valid_move m w h (sp.1 + d.1, sp.2 + d.2)) with
    | some d => [sp, (sp.1 + d.1, sp.2 + d.2)]
    | none => [sp]

/-- Function `direction_toward_goal(start_pos, frontier_pos, goal_pos)`: cosine of the
angle between start→frontier and start→goal, mapped from [-1, 1] to [0, 1];
0.5 for a zero-length vector.  Python's float arithmetic (`math.sqrt`,
division) is idealized as exact real arithmetic. -/
noncomputable def direction_toward_goal (sp fp gp : Pos) : ℝ :=
  let v1x : ℝ := ((fp.1 - sp.1 : ℤ) : ℝ)
  let v1y : ℝ := ((fp.2 - sp.2 : ℤ) : ℝ)
  let v2x : ℝ := ((gp.1 - sp.1 : ℤ) : ℝ)
  let v2y : ℝ := ((gp.2 - sp.2 : ℤ) : ℝ)
  let v1m := Real.sqrt (v1x ^ 2 + v1y ^ 2)
  let v2m := Real.sqrt (v2x ^ 2 + v2y ^ 2)
  if v1m = 0 ∨ v2m = 0 then 0.5
  else ((v1x / v1m) * (v2x / v2m) + (v1y / v1m) * (v2y / v2m) + 1) / 2

/-- The frontier score computed in `explore_maze` (lines 244‑262):
`direction_score * 0.5 + distance_score * 0.2 + powerup_score * 0.3`, where
`distance_score = 1 / (manhattan(start, frontier) + 1)` and `powerup_score`
sums `1 / (manhattan(frontier, p) + 1)` over all powerup positions. -/
noncomputable def frontier_score (pu : List Pos) (sp fp gp : Pos) : ℝ :=
  let direction_score := direction_toward_goal sp fp gp
  let distance_score : ℝ := 1 / (((manhattan_distance sp fp : ℤ) : ℝ) + 1)
  let powerup_score : ℝ :=
    (pu.map (fun p => 1 / (((manhattan_distance fp p : ℤ) : ℝ) + 1))).sum
  direction_score * 0.5 + distance_score * 0.2 + powerup_score * 0.3

open Classical in
/-- Sorting `scored_frontiers.sort(reverse=True)` on `(score, position)` pairs:
descending lexicographic order, score first.  (A stable sort; ties are
impossible since positions are distinct.) -/
noncomputable def sort_scored (l : List (ℝ × Pos)) : List (ℝ × Pos) :=
  l.mergeSort (fun a b =>
    decide (b.1 < a.1) || (decide (b.1 = a.1) && !posLt a.2 b.2))

/-- The `for _, frontier_pos in scored_frontiers[:3]` loop of `explore_maze`
(lines 268‑271): return the first truthy `bfs_path` result; `[]` when all
three fail. -/
def try_scored (m : Maze) (w h : ℤ) (sp : Pos) : List (ℝ × Pos) → List Pos
  | [] => []
  | (_, fp) :: rest =>
    match bfs_path m w h sp fp with
    | some p => if p = [] then try_scored m w h sp rest else p
    | none => try_scored m w h sp rest

/-- Function `explore_maze(maze, start_pos, goal_pos, width, height)`. -/
noncomputable def explore_maze (m : Maze) (w h : ℤ) (sp gp : Pos) : List Pos :=
  let frontiers := find_frontiers m w h
  let powerup_positions := (find_all_powerups m w h).map (·.2)
  if frontiers = [] then find_any_valid_move m w h sp
  else
    let scored := frontiers.map (fun fp => (frontier_score powerup_positions sp fp gp, fp))
    let best := try_scored m w h sp ((sort_scored scored).take 3)
    if best = [] then find_any_valid_move m w h sp else best

/-- The frontier-score formula exactly as the specification words it
(`0.7 × direction_alignment + 0.3 × (1/(1+manhattan_distance))`), stated for
comparison against the score the code computes. -/
noncomputable def spec_frontier_score (sp fp gp : Pos) : ℝ :=
  0.7 * direction_toward_goal sp fp gp +
    0.3 * (1 / (((manhattan_distance sp fp : ℤ) : ℝ) + 1))

/-- The invariant of an `a_star_search` heap entry `(priority, pos, path)`:
the carried path is a unit-step walk from the start to `pos` whose cells
(except possibly the start) are valid moves. -/
def GoodEntry (m : Maze) (w h : ℤ) (sp : Pos) (e : Entry) : Prop :=
  e.2.2.head? = some sp ∧ e.2.2.getLast? = some e.2.1 ∧ Chain1 e.2.2 ∧
  ∀ x ∈ e.2.2, x = sp ∨ is_valid_move m w h x = true

end Sample

/-! ## Concrete instances used by the analyses below -/

/-- A 3×1 maze `[0, 1, 0]`: the wall at `(1, 0)` separates `(0, 0)` from
`(2, 0)`, so no traversable path connects them. -/
def mazeA : Runner.Maze := fun y x => if (x, y) = ((1 : ℤ), (0 : ℤ)) then 1 else 0

/-- A 5×5 maze (rows top to bottom: `00000 / 10100 / 00100 / 00010 / 00000`)
on which breadth-first search from `(3, 4)` to `(0, 0)` finds a shorter path
than `a_star_search` does. -/
def mazeB : Runner.Maze := fun y x =>
  if (x, y) ∈ ([((0 : ℤ), (1 : ℤ)), (2, 1), (2, 2), (3, 3)] : List Pos) then 1 else 0

/-- An all-open maze (every cell 0). -/
def mazeZ : Runner.Maze := fun _ _ => 0

/-- A freshly constructed runner on the all-open 1×3 maze, mirroring
`AlgorithmRunner.__init__`. -/
def runner0 : Runner.AlgorithmRunner :=
  { maze := mazeZ, width := 1, height := 3, custom_algorithm := none,
    path := [], current_path_index := 0, loaded_algorithm := false,
    visited_cells := [], vision_range := 4 }

/-- A freshly constructed runner on the 3×1 maze `[0, 1, 0]`. -/
def runnerA : Runner.AlgorithmRunner :=
  { maze := mazeA, width := 3, height := 1, custom_algorithm := none,
    path := [], current_path_index := 0, loaded_algorithm := false,
    visited_cells := [], vision_range := 4 }

/-- An external solver that raises on every call. -/
def failSolver : Runner.SolveFn := fun _ _ _ => .error ()

/-- An external solver that returns a fixed (jumpy, wall-ignoring) path. -/
def jumpSolver : Runner.SolveFn := fun _ _ _ => .ok [((0 : ℤ), (0 : ℤ)), (9, 9)]

/-- A permutation supply for the maze generator that never shuffles. -/
def constSupply : ℕ → Equiv.Perm (Fin 4) := fun _ => Equiv.refl _

/-! ## Connectivity of the carved maze -/

namespace MazeGen

theorem greach_mono {g g' : BGrid}
    (hmono : ∀ p : Pos, OpenCell g p → OpenCell g' p) {a b : Pos}
    (h : GReach g a b) : GReach g' a b := by
  induction h with
  | refl => exact Relation.ReflTransGen.refl
  | tail _ hstep ih => exact ih.tail ⟨hstep.1, hmono _ hstep.2⟩

theorem open_setCell_false_iff (g : BGrid) (y x : ℤ) (p : Pos) :
    OpenCell (setCell g y x false) p ↔ (p.2 = y ∧ p.1 = x) ∨ OpenCell g p := by
  simp only [OpenCell, setCell]
  split
  · simp_all
  · simp_all

theorem setCell_false_open {g : BGrid} {y x : ℤ} {p : Pos}
    (h : OpenCell g p) : OpenCell (setCell g y x false) p :=
  (open_setCell_false_iff g y x p).mpr (Or.inr h)

theorem open_setCell_self (g : BGrid) (y x : ℤ) :
    OpenCell (setCell g y x false) (x, y) :=
  (open_setCell_false_iff g y x (x, y)).mpr (Or.inl ⟨rfl, rfl⟩)

/-- Carving never closes a cell: the `carveStep` loop, given that recursion
at this fuel level never closes one. -/
theorem carveStep_mono_of (w h : ℤ) (supply : ℕ → Equiv.Perm (Fin 4)) (fuel : ℕ)
    (hP : ∀ g k x y (p : Pos), OpenCell g p →
      OpenCell (carvePaths w h supply fuel g k x y).1 p) :
    ∀ ds g k x y (p : Pos), OpenCell g p →
      OpenCell (carveStep w h supply fuel ds g k x y).1 p := by
  intro ds
  induction ds with
  | nil => intro g k x y p hp; simpa only [carveStep] using hp
  | cons d rest ih =>
    intro g k x y p hp
    rw [carveStep]
    split
    · exact ih _ _ _ _ p (hP _ _ _ _ p (setCell_false_open (setCell_false_open hp)))
    · exact ih _ _ _ _ p hp

/-- Carving never closes a cell. -/
theorem carvePaths_mono (w h : ℤ) (supply : ℕ → Equiv.Perm (Fin 4)) :
    ∀ fuel g k x y (p : Pos), OpenCell g p →
      OpenCell (carvePaths w h supply fuel g k x y).1 p := by
  intro fuel
  induction fuel with
  | zero => intro g k x y p hp; simpa only [carvePaths] using hp
  | succ n ih =>
    intro g k x y p hp
    rw [carvePaths]
    exact carveStep_mono_of w h supply n ih _ _ _ _ _ p hp

/-- Opening a cell adjacent to a reachable cell preserves the invariant. -/
theorem inv_open_adj {g : BGrid} (hInv : Inv g) (a b : Pos)
    (ha : GReach g (0, 0) a) (hab : manhattan a b = 1) :
    Inv (setCell g b.2 b.1 false) := by
  intro p hp
  rcases (open_setCell_false_iff g b.2 b.1 p).mp hp with heq | hop
  · have hpb : p = b := Prod.ext heq.2 heq.1
    subst hpb
    refine Relation.ReflTransGen.tail
      (greach_mono (fun q hq => setCell_false_open hq) ha) ?_
    exact ⟨hab, open_setCell_self g p.2 p.1⟩
  · exact greach_mono (fun q hq => setCell_false_open hq) (hInv p hop)

theorem shuffledDirs_unit (perm : Equiv.Perm (Fin 4)) :
    ∀ d ∈ shuffledDirs perm, |d.1| + |d.2| = 1 := by
  have hall : ∀ i : Fin 4, |(dirs4 i).1| + |(dirs4 i).2| = 1 := by decide
  intro d hd
  have hcases : d = dirs4 (perm 0) ∨ d = dirs4 (perm 1) ∨ d = dirs4 (perm 2) ∨
      d = dirs4 (perm 3) := by simpa [shuffledDirs] using hd
  rcases hcases with rfl | rfl | rfl | rfl <;> exact hall _

theorem manhattan_two_steps (x y dx dy : ℤ) (hd : |dx| + |dy| = 1) :
    manhattan (x, y) (x + dx, y + dy) = 1 ∧
    manhattan (x + dx, y + dy) (x + dx * 2, y + dy * 2) = 1 := by
  constructor
  · simp only [manhattan]
    have h1 : x - (x + dx) = -dx := by ring
    have h2 : y - (y + dy) = -dy := by ring
    rw [h1, h2, abs_neg, abs_neg]; exact hd
  · simp only [manhattan]
    have h1 : x + dx - (x + dx * 2) = -dx := by ring
    have h2 : y + dy - (y + dy * 2) = -dy := by ring
    rw [h1, h2, abs_neg, abs_neg]; exact hd

/-- The `carveStep` loop preserves the connectivity invariant, given that
recursion at this fuel level does. -/
theorem carveStepInv_of (w h : ℤ) (supply : ℕ → Equiv.Perm (Fin 4)) (fuel : ℕ)
    (hP : ∀ g k x y, Inv g → OpenCell g (x, y) →
      Inv (carvePaths w h supply fuel g k x y).1) :
    ∀ ds, (∀ d ∈ ds, |d.1| + |d.2| = 1) →
      ∀ g k x y, Inv g → OpenCell g (x, y) →
        Inv (carveStep w h supply fuel ds g k x y).1 := by
  intro ds
  induction ds with
  | nil => intro _ g k x y hInv _; simpa only [carveStep] using hInv
  | cons d rest ih =>
    intro hds g k x y hInv hxy
    rw [carveStep]
    split
    · obtain ⟨hmid, hnew⟩ := manhattan_two_steps x y d.1 d.2 (hds d (by simp))
      have hInv1 : Inv (setCell g (y + d.2) (x + d.1) false) :=
        inv_open_adj hInv (x, y) (x + d.1, y + d.2) (hInv _ hxy) hmid
      have hInv2 : Inv (setCell (setCell g (y + d.2) (x + d.1) false)
          (y + d.2 * 2) (x + d.1 * 2) false) :=
        inv_open_adj hInv1 (x + d.1, y + d.2) (x + d.1 * 2, y + d.2 * 2)
          (hInv1 _ (open_setCell_self _ _ _)) hnew
      have hopen2 : OpenCell (setCell (setCell g (y + d.2) (x + d.1) false)
          (y + d.2 * 2) (x + d.1 * 2) false) (x + d.1 * 2, y + d.2 * 2) :=
        open_setCell_self _ _ _
      refine ih (fun d' hd' => hds d' (by simp [hd'])) _ _ _ _
        (hP _ _ _ _ hInv2 hopen2) ?_
      exact carvePaths_mono w h supply fuel _ _ _ _ _
        (setCell_false_open (setCell_false_open hxy))
    · exact ih (fun d' hd' => hds d' (by simp [hd'])) _ _ _ _ hInv hxy

/-- Recursive carving preserves the connectivity invariant. -/
theorem carvePaths_inv (w h : ℤ) (supply : ℕ → Equiv.Perm (Fin 4)) :
    ∀ fuel g k x y, Inv g → OpenCell g (x, y) →
      Inv (carvePaths w h supply fuel g k x y).1 := by
  intro fuel
  induction fuel with
  | zero => intro g k x y hInv _; simpa only [carvePaths] using hInv
  | succ n ih =>
    intro g k x y hInv hxy
    rw [carvePaths]
    exact carveStepInv_of w h supply n ih _ (shuffledDirs_unit _) _ _ _ _ hInv hxy

end MazeGen

/-! ## Walks and reachability -/

theorem walk_reachable {ok : Pos → Bool} :
    ∀ (p : List Pos) (a b : Pos), p.head? = some a → p.getLast? = some b →
      Chain1 p → (∀ x ∈ p, ok x = true) → reachable_via ok a b := by
  intro p
  induction p with
  | nil => intro a b h; simp at h
  | cons x t ih =>
    intro a b ha hb hc hm
    simp only [List.head?_cons, Option.some.injEq] at ha
    subst ha
    cases t with
    | nil =>
      have hxb : x = b := Option.some.inj hb
      subst hxb
      exact Relation.ReflTransGen.refl
    | cons y t' =>
      have hstep : manhattan x y = 1 := (List.chain'_cons.mp hc).1
      have hy : ok y = true := hm y (by simp)
      have htail : reachable_via ok y b := by
        refine ih y b rfl ?_ (List.chain'_cons.mp hc).2 ?_
        · simpa using hb
        · intro z hz; exact hm z (List.mem_cons_of_mem _ hz)
      exact Relation.ReflTransGen.head ⟨hstep, hy⟩ htail

/-! ## Soundness of the parent-map BFS of `algorithm_runner.py` -/

namespace Runner

theorem keys_append (m e : PMap) : keys (m ++ e) = keys m ++ keys e :=
  List.map_append _ _ _

theorem keys_cons (k : Pos) (v : Option Pos) (t : PMap) :
    keys ((k, v) :: t) = k :: keys t := rfl

theorem lookup_cons (k : Pos) (v : Option Pos) (t : PMap) (c : Pos) :
    ((k, v) :: t).lookup c = if c = k then some v else t.lookup c := by
  by_cases h : c = k
  · subst h; simp [List.lookup]
  · simp only [List.lookup, beq_eq_false_iff_ne.mpr h, if_neg h]

theorem lookup_isSome_of_mem {m : PMap} {c : Pos} (h : c ∈ keys m) :
    (m.lookup c).isSome = true := by
  induction m with
  | nil => simp [keys] at h
  | cons kv t ih =>
    rcases kv with ⟨k, v⟩
    rw [lookup_cons]
    by_cases hk : c = k
    · simp [hk]
    · rw [keys_cons, List.mem_cons] at h
      rw [if_neg hk]
      exact ih (h.resolve_left hk)

theorem lookup_eq_none_of_not_mem {m : PMap} {c : Pos} (h : c ∉ keys m) :
    m.lookup c = none := by
  induction m with
  | nil => rfl
  | cons kv t ih =>
    rcases kv with ⟨k, v⟩
    rw [keys_cons, List.mem_cons, not_or] at h
    rw [lookup_cons, if_neg h.1]
    exact ih h.2

theorem lookup_append_of_mem {m : PMap} {c : Pos} (e : PMap) (h : c ∈ keys m) :
    (m ++ e).lookup c = m.lookup c := by
  induction m with
  | nil => simp [keys] at h
  | cons kv t ih =>
    rcases kv with ⟨k, v⟩
    rw [List.cons_append, lookup_cons, lookup_cons]
    by_cases hk : c = k
    · simp [hk]
    · rw [keys_cons, List.mem_cons] at h
      rw [if_neg hk, if_neg hk]
      exact ih (h.resolve_left hk)

theorem lookup_append_of_not_mem {m : PMap} {c : Pos} (e : PMap) (h : c ∉ keys m) :
    (m ++ e).lookup c = e.lookup c := by
  induction m with
  | nil => rfl
  | cons kv t ih =>
    rcases kv with ⟨k, v⟩
    rw [keys_cons, List.mem_cons, not_or] at h
    rw [List.cons_append, lookup_cons, if_neg h.1]
    exact ih h.2

theorem GoodMap.start_mem {ok : Pos → Bool} {s : Pos} {m : PMap}
    (h : GoodMap ok s m) : s ∈ keys m := by
  induction h with
  | base => simp [keys]
  | snoc _ _ _ _ _ ih => rw [keys_append]; exact List.mem_append_left _ ih

theorem GoodMap.lookup_parent {ok : Pos → Bool} {s : Pos} {m : PMap}
    (h : GoodMap ok s m) {c par : Pos} (hl : m.lookup c = some (some par)) :
    par ∈ keys m ∧ manhattan par c = 1 ∧ ok c = true := by
  induction h with
  | base =>
    rw [lookup_cons] at hl
    by_cases hc : c = s
    · rw [if_pos hc] at hl; simp at hl
    · rw [if_neg hc] at hl; simp [List.lookup] at hl
  | @snoc m' c' n hm hc' hn hman hok ih =>
    by_cases hmem : c ∈ keys m'
    · rw [lookup_append_of_mem _ hmem] at hl
      obtain ⟨h1, h2, h3⟩ := ih hl
      exact ⟨by rw [keys_append]; exact List.mem_append_left _ h1, h2, h3⟩
    · rw [lookup_append_of_not_mem _ hmem, lookup_cons] at hl
      by_cases hcn : c = n
      · rw [if_pos hcn] at hl
        simp only [Option.some.injEq] at hl
        subst hcn
        rw [← hl]
        exact ⟨by rw [keys_append]; exact List.mem_append_left _ hc', hman, hok⟩
      · rw [if_neg hcn] at hl; simp [List.lookup] at hl

theorem rebuild_stable {ok : Pos → Bool} {s : Pos} {m : PMap}
    (h : GoodMap ok s m) (e : PMap) :
    ∀ (fuel : ℕ) (c : Pos), c ∈ keys m →
      rebuildPath (m ++ e) s fuel c = rebuildPath m s fuel c := by
  intro fuel
  induction fuel with
  | zero => intro c _; rfl
  | succ f ih =>
    intro c hc
    by_cases hcs : c = s
    · subst hcs; simp [rebuildPath]
    · rw [rebuildPath, rebuildPath, if_neg hcs, if_neg hcs,
        lookup_append_of_mem _ hc]
      cases hv : m.lookup c with
      | none => rfl
      | some v =>
        cases v with
        | none => rfl
        | some par =>
          have hpar := (h.lookup_parent hv).1
          show rebuildPath (m ++ e) s f par ++ [c] = rebuildPath m s f par ++ [c]
          rw [ih par hpar]

/-- Correctness of the path reconstruction on a well-formed parent map: the
rebuilt list runs from the start to the requested cell along unit steps, and
every cell on it is the start or passed the admission test. -/
theorem rebuild_spec {ok : Pos → Bool} {s : Pos} {m : PMap}
    (h : GoodMap ok s m) :
    ∀ (c : Pos), c ∈ keys m → ∀ (fuel : ℕ), m.length < fuel →
      (rebuildPath m s fuel c).head? = some s ∧
      (rebuildPath m s fuel c).getLast? = some c ∧
      Chain1 (rebuildPath m s fuel c) ∧
      ∀ x ∈ rebuildPath m s fuel c, x = s ∨ ok x = true := by
  induction h with
  | base =>
    intro c hc fuel hfuel
    have hcs : c = s := by simpa [keys] using hc
    subst hcs
    obtain ⟨f, rfl⟩ : ∃ f, fuel = f + 1 := ⟨fuel - 1, by omega⟩
    simp [rebuildPath, Chain1]
  | @snoc m' c' n hm hc' hn hman hok ih =>
    intro c hc fuel hfuel
    rw [keys_append] at hc
    rcases List.mem_append.mp hc with hcm | hcn
    · rw [rebuild_stable hm _ fuel c hcm]
      exact ih c hcm fuel (by simpa using Nat.lt_of_succ_lt (by simpa using hfuel))
    · have hcn : c = n := by simpa [keys] using hcn
      subst hcn
      have hns : c ≠ s := fun hcs => hn (hcs ▸ hm.start_mem)
      obtain ⟨f, rfl⟩ : ∃ f, fuel = f + 1 := ⟨fuel - 1, by omega⟩
      have hlen : m'.length < f := by
        simp only [List.length_append, List.length_singleton] at hfuel; omega
      have hre : rebuildPath (m' ++ [(c, some c')]) s (f + 1) c =
          rebuildPath m' s f c' ++ [c] := by
        rw [rebuildPath, if_neg hns, lookup_append_of_not_mem _ hn,
          lookup_cons, if_pos rfl]
        show rebuildPath (m' ++ [(c, some c')]) s f c' ++ [c] = _
        rw [rebuild_stable hm _ f c' hc']
      rw [hre]
      obtain ⟨ihh, ihl, ihc, ihm⟩ := ih c' hc' f hlen
      obtain ⟨q, hq⟩ : ∃ q, rebuildPath m' s f c' = s :: q := by
        cases hrb : rebuildPath m' s f c' with
        | nil => rw [hrb] at ihh; simp at ihh
        | cons a t => rw [hrb] at ihh; simp only [List.head?_cons,
            Option.some.injEq] at ihh; exact ⟨t, by rw [ihh]⟩
      refine ⟨?_, ?_, ?_, ?_⟩
      · rw [hq]; rfl
      · exact List.getLast?_concat _
      · refine List.chain'_append.mpr ⟨ihc, List.chain'_singleton _, ?_⟩
        intro x hx y hy
        rw [ihl] at hx
        simp only [Option.mem_def, Option.some.injEq] at hx
        simp only [List.head?_cons, Option.mem_def, Option.some.injEq] at hy
        subst hx; subst hy; exact hman
      · intro x hx
        rcases List.mem_append.mp hx with hxm | hxn
        · exact ihm x hxm
        · right; rw [List.mem_singleton.mp hxn]; exact hok

theorem directions_unit : ∀ d ∈ directions, |d.1| + |d.2| = 1 := by decide

theorem manhattan_add (c : Pos) (d : Pos) :
    manhattan c (c.1 + d.1, c.2 + d.2) = |d.1| + |d.2| := by
  simp only [manhattan]
  have h1 : c.1 - (c.1 + d.1) = -d.1 := by ring
  have h2 : c.2 - (c.2 + d.2) = -d.2 := by ring
  rw [h1, h2, abs_neg, abs_neg]

/-- The expansion loop preserves the parent-map invariant, keeps every queued
cell recorded, and only grows the key set. -/
theorem expandDirs_inv {ok : Pos → Bool} {s c : Pos} :
    ∀ (ds : List Pos) (q : List Pos) (m : PMap),
      (∀ d ∈ ds, |d.1| + |d.2| = 1) →
      GoodMap ok s m → c ∈ keys m → (∀ x ∈ q, x ∈ keys m) →
      GoodMap ok s (expandDirs ok c ds (q, m)).2 ∧
      (∀ x ∈ (expandDirs ok c ds (q, m)).1, x ∈ keys (expandDirs ok c ds (q, m)).2) ∧
      (∀ x ∈ keys m, x ∈ keys (expandDirs ok c ds (q, m)).2) := by
  intro ds
  induction ds with
  | nil => intro q m _ hg _ hq; exact ⟨hg, hq, fun x hx => hx⟩
  | cons d rest ih =>
    intro q m hds hg hc hq
    simp only [expandDirs]
    split
    · rename_i hcond
      have hnm : (c.1 + d.1, c.2 + d.2) ∉ keys m := by
        intro hmem
        have := lookup_isSome_of_mem hmem
        rw [hcond.2] at this
        simp at this
      have hg' : GoodMap ok s (m ++ [((c.1 + d.1, c.2 + d.2), some c)]) :=
        hg.snoc hc hnm (by rw [manhattan_add]; exact hds d (by simp)) hcond.1
      have hkey : (c.1 + d.1, c.2 + d.2) ∈ keys (m ++ [((c.1 + d.1, c.2 + d.2), some c)]) := by
        rw [keys_append]; simp [keys]
      have hmono : ∀ x ∈ keys m, x ∈ keys (m ++ [((c.1 + d.1, c.2 + d.2), some c)]) := by
        intro x hx; rw [keys_append]; exact List.mem_append_left _ hx
      obtain ⟨a, b, cm⟩ := ih (q ++ [(c.1 + d.1, c.2 + d.2)]) _
        (fun d' hd' => hds d' (by simp [hd']))
        hg' (hmono c hc)
        (by
          intro x hx
          rcases List.mem_append.mp hx with hxq | hxn
          · exact hmono x (hq x hxq)
          · rw [List.mem_singleton.mp hxn]; exact hkey)
      exact ⟨a, b, fun x hx => cm x (hmono x hx)⟩
    · exact ih q m (fun d' hd' => hds d' (by simp [hd'])) hg hc hq

/-- Soundness of the BFS loop: the result is `[]`, or a unit-step walk from
the start to the target whose cells (except possibly the start) passed the
admission test. -/
theorem bfsLoop_sound (ok : Pos → Bool) (gate : Bool) (s target : Pos) :
    ∀ (fuel : ℕ) (q : List Pos) (m : PMap),
      GoodMap ok s m → (∀ x ∈ q, x ∈ keys m) →
      bfsLoop ok gate s target fuel q m = [] ∨
        ((bfsLoop ok gate s target fuel q m).head? = some s ∧
         (bfsLoop ok gate s target fuel q m).getLast? = some target ∧
         Chain1 (bfsLoop ok gate s target fuel q m) ∧
         ∀ x ∈ bfsLoop ok gate s target fuel q m, x = s ∨ ok x = true) := by
  intro fuel
  induction fuel with
  | zero => intro q m _ _; left; rfl
  | succ f ih =>
    intro q m hg hq
    cases q with
    | nil => left; rfl
    | cons c rest =>
      simp only [bfsLoop]
      split
      · rename_i hcond
        right
        have hc : c ∈ keys m := hq c (by simp)
        obtain ⟨h1, h2, h3, h4⟩ := rebuild_spec hg c hc (m.length + 1) (by omega)
        exact ⟨h1, hcond.1 ▸ h2, h3, h4⟩
      · have hc : c ∈ keys m := hq c (by simp)
        obtain ⟨hg', hq', _⟩ := expandDirs_inv directions rest m directions_unit hg hc
          (fun x hx => hq x (by simp [hx]))
        exact ih _ _ hg' hq'

theorem goodmap_init (ok : Pos → Bool) (s : Pos) :
    GoodMap ok s [(s, none)] := GoodMap.base

theorem queue_init (s : Pos) : ∀ x ∈ [s], x ∈ keys [(s, none)] := by
  intro x hx; simp at hx; subst hx; simp [keys]

/-- Soundness of the candidate-frontier loop: the result is `[]` or a
unit-step walk beginning at the start position. -/
theorem try_frontiers_sound (mz : Maze) (w h : ℤ) (vis : List Pos) (vr : ℤ) (sp : Pos) :
    ∀ l, try_frontiers mz w h vis vr sp l = [] ∨
      ((try_frontiers mz w h vis vr sp l).head? = some sp ∧
       Chain1 (try_frontiers mz w h vis vr sp l)) := by
  intro l
  induction l with
  | nil => left; rfl
  | cons fd rest ih =>
    obtain ⟨fp, dist⟩ := fd
    simp only [try_frontiers]
    split
    · exact ih
    · rename_i hne
      rcases bfsLoop_sound (explore_ok mz w h vis vr sp) true sp fp
          (w.toNat * h.toNat + 2) [sp] [(sp, none)]
          (goodmap_init _ _) (queue_init _) with h0 | ⟨h1, _, h3, _⟩
      · exact absurd h0 hne
      · right; exact ⟨h1, h3⟩

theorem first_valid_step_unit (mz : Maze) (w h : ℤ) (sp : Pos) :
    ∀ ds, (∀ d ∈ ds, |d.1| + |d.2| = 1) →
      ∀ n, first_valid_step mz w h sp ds = some n → manhattan sp n = 1 := by
  intro ds
  induction ds with
  | nil => intro _ n hn; simp [first_valid_step] at hn
  | cons d rest ih =>
    intro hds n hn
    simp only [first_valid_step] at hn
    split at hn
    · cases hn
      rw [manhattan_add]
      exact hds d (by simp)
    · exact ih (fun d' hd' => hds d' (by simp [hd'])) n hn

/-- Soundness of `_explore_toward_goal`: the result is `[]` or a unit-step
walk beginning at the start position. -/
theorem explore_sound (mz : Maze) (w h : ℤ) (vis : List Pos) (vr : ℤ) (sp gp : Pos) :
    explore_toward_goal mz w h vis vr sp gp = [] ∨
      ((explore_toward_goal mz w h vis vr sp gp).head? = some sp ∧
       Chain1 (explore_toward_goal mz w h vis vr sp gp)) := by
  simp only [explore_toward_goal]
  split
  · right; exact ⟨rfl, List.chain'_singleton _⟩
  · split
    · rename_i hbest
      split
      · rename_i n hfv
        right
        refine ⟨rfl, List.chain'_pair.mpr ?_⟩
        exact first_valid_step_unit mz w h sp directions directions_unit n hfv
      · right; exact ⟨rfl, List.chain'_singleton _⟩
    · rename_i hbest
      rcases try_frontiers_sound mz w h vis vr sp _ with h0 | ⟨h1, h2⟩
      · exact absurd h0 hbest
      · right; exact ⟨h1, h2⟩

/-- Soundness of `_default_algorithm`: the result is `[]` or a unit-step walk
beginning at the requested start position. -/
theorem default_algorithm_sound (mz : Maze) (w h : ℤ) (vis : List Pos) (vr : ℤ)
    (sp gp : Pos) :
    default_algorithm mz w h vis vr sp gp = [] ∨
      ((default_algorithm mz w h vis vr sp gp).head? = some sp ∧
       Chain1 (default_algorithm mz w h vis vr sp gp)) := by
  simp only [default_algorithm]
  split
  · left; rfl
  · split
    · exact explore_sound mz w h vis vr sp gp
    · rcases bfsLoop_sound (bfs_ok mz w h) false sp gp
          (w.toNat * h.toNat + 2) [sp] [(sp, none)]
          (goodmap_init _ _) (queue_init _) with h0 | ⟨h1, _, h3, _⟩
      · left; exact h0
      · right; exact ⟨h1, h3⟩

/-- Soundness of the BFS branch of `_default_algorithm` (wall checks passed,
goal visible): `[]` or a full unit-step walk from start to goal through
admissible cells. -/
theorem default_algorithm_bfs (mz : Maze) (w h : ℤ) (vis : List Pos) (vr : ℤ)
    (sp gp : Pos)
    (hwall : ¬(mz sp.2 sp.1 = 1 ∨ mz gp.2 gp.1 = 1))
    (hvis : is_cell_visible vis vr gp.1 gp.2 sp.1 sp.2 = true) :
    default_algorithm mz w h vis vr sp gp = [] ∨
      ((default_algorithm mz w h vis vr sp gp).head? = some sp ∧
       (default_algorithm mz w h vis vr sp gp).getLast? = some gp ∧
       Chain1 (default_algorithm mz w h vis vr sp gp) ∧
       ∀ x ∈ default_algorithm mz w h vis vr sp gp, x = sp ∨ bfs_ok mz w h x = true) := by
  rw [default_algorithm, if_neg hwall, if_neg (by simp [hvis])]
  exact bfsLoop_sound (bfs_ok mz w h) false sp gp (w.toNat * h.toNat + 2) [sp]
    [(sp, none)] (goodmap_init _ _) (queue_init _)

end Runner

/-! ## Soundness of `a_star_search` -/

namespace Sample

open Runner (Maze)

theorem minEntry_mem : ∀ (l : List Entry) (e : Entry),
    minEntry e l = e ∨ minEntry e l ∈ l := by
  intro l
  induction l with
  | nil => intro e; left; rfl
  | cons x rest ih =>
    intro e
    simp only [minEntry]
    rcases ih (if entryLt x e = true then x else e) with hh | hh
    · rw [hh]
      split
      · right; simp
      · left; rfl
    · right; exact List.mem_cons_of_mem _ hh

theorem popMin_spec {l : List Entry} {b : Entry} {rest : List Entry}
    (h : popMin l = some (b, rest)) : b ∈ l ∧ ∀ x ∈ rest, x ∈ l := by
  cases l with
  | nil => simp [popMin] at h
  | cons e t =>
    simp only [popMin, Option.some.injEq, Prod.mk.injEq] at h
    obtain ⟨hb, hrest⟩ := h
    constructor
    · rcases minEntry_mem t e with hh | hh
      · rw [← hb, hh]; simp
      · rw [← hb]; exact List.mem_cons_of_mem _ hh
    · intro x hx
      rw [← hrest] at hx
      exact List.mem_of_mem_erase hx

theorem sample_directions_unit : ∀ d ∈ sample_directions, |d.1| + |d.2| = 1 := by
  decide

/-- The A* expansion loop yields only good heap entries. -/
theorem aStarExpand_inv (m : Maze) (w h : ℤ) (gp : Pos) {sp cur : Pos} {path : List Pos} :
    ∀ (ds : List Pos) (q : List Entry) (vis : List Pos),
      (∀ d ∈ ds, |d.1| + |d.2| = 1) →
      (∀ e ∈ q, GoodEntry m w h sp e) →
      path.head? = some sp → path.getLast? = some cur → Chain1 path →
      (∀ x ∈ path, x = sp ∨ is_valid_move m w h x = true) →
      ∀ e ∈ (aStarExpand m w h gp cur path ds (q, vis)).1, GoodEntry m w h sp e := by
  intro ds
  induction ds with
  | nil => intro q vis _ hq _ _ _ _; exact hq
  | cons d rest ih =>
    intro q vis hds hq hh hl hc hm
    simp only [aStarExpand]
    split
    · rename_i hcond
      refine ih _ _ (fun d' hd' => hds d' (by simp [hd'])) ?_ hh hl hc hm
      intro e he
      rcases List.mem_append.mp he with heq | hen
      · exact hq e heq
      · rw [List.mem_singleton.mp hen]
        obtain ⟨p0, hp0⟩ : ∃ p0, path = sp :: p0 := by
          cases hp : path with
          | nil => rw [hp] at hh; simp at hh
          | cons a t =>
            rw [hp] at hh
            simp only [List.head?_cons, Option.some.injEq] at hh
            exact ⟨t, by rw [hh]⟩
        refine ⟨?_, ?_, ?_, ?_⟩
        · show (path ++ [(cur.1 + d.1, cur.2 + d.2)]).head? = some sp
          rw [hp0]; rfl
        · exact List.getLast?_concat _
        · refine List.chain'_append.mpr ⟨hc, List.chain'_singleton _, ?_⟩
          intro x hx y hy
          rw [hl] at hx
          simp only [Option.mem_def, Option.some.injEq] at hx
          simp only [List.head?_cons, Option.mem_def, Option.some.injEq] at hy
          subst hx; subst hy
          rw [Runner.manhattan_add]
          exact hds d (by simp)
        · intro x hx
          rcases List.mem_append.mp hx with hxp | hxn
          · exact hm x hxp
          · right; rw [List.mem_singleton.mp hxn]; exact hcond.1
    · exact ih _ _ (fun d' hd' => hds d' (by simp [hd'])) hq hh hl hc hm

/-- Soundness of the A* loop: the `[start]` sentinel, or a unit-step walk
from start to goal through valid cells. -/
theorem aStarLoop_sound (m : Maze) (w h : ℤ) (sp gp : Pos) :
    ∀ (fuel : ℕ) (q : List Entry) (vis : List Pos),
      (∀ e ∈ q, GoodEntry m w h sp e) →
      aStarLoop m w h sp gp fuel q vis = [sp] ∨
        ((aStarLoop m w h sp gp fuel q vis).head? = some sp ∧
         (aStarLoop m w h sp gp fuel q vis).getLast? = some gp ∧
         Chain1 (aStarLoop m w h sp gp fuel q vis) ∧
         ∀ x ∈ aStarLoop m w h sp gp fuel q vis,
           x = sp ∨ is_valid_move m w h x = true) := by
  intro fuel
  induction fuel with
  | zero => intro q vis _; left; rfl
  | succ f ih =>
    intro q vis hq
    cases hpop : popMin q with
    | none => left; simp [aStarLoop, hpop]
    | some br =>
      obtain ⟨b, rest⟩ := br
      obtain ⟨pr, cur, path⟩ := b
      obtain ⟨hbmem, hrest⟩ := popMin_spec hpop
      obtain ⟨hh, hl, hc, hm⟩ := hq _ hbmem
      simp only [aStarLoop, hpop]
      split
      · rename_i hcur
        right
        exact ⟨hh, hcur ▸ hl, hc, hm⟩
      · exact ih _ _ (aStarExpand_inv m w h gp sample_directions rest vis
          sample_directions_unit (fun e he => hq e (hrest e he)) hh hl hc hm)

/-- Soundness of `a_star_search`: the `[start]` sentinel, or a unit-step walk
from start to goal through valid cells. -/
theorem a_star_search_sound (m : Maze) (w h : ℤ) (sp gp : Pos) :
    a_star_search m w h sp gp = [sp] ∨
      ((a_star_search m w h sp gp).head? = some sp ∧
       (a_star_search m w h sp gp).getLast? = some gp ∧
       Chain1 (a_star_search m w h sp gp) ∧
       ∀ x ∈ a_star_search m w h sp gp, x = sp ∨ is_valid_move m w h x = true) := by
  refine aStarLoop_sound m w h sp gp _ _ _ ?_
  intro e he
  rw [List.mem_singleton.mp he]
  exact ⟨rfl, rfl, List.chain'_singleton _, by intro x hx; left; simpa using hx⟩

end Sample

/-! ## Claim C7: the generator forces both corner cells open -/

/-- Claim C7: for every width and height (each at least 1: with a zero
dimension the Python code raises on its first index) and every state of the
random source and recursion budget, the grid returned by
`MazeGenerator.generate` has the top-left cell `(0, 0)` and the bottom-right
cell `(width-1, height-1)` open, regardless of the carving outcome. -/
theorem C7_corners_open (w h : ℤ) (supply : ℕ → Equiv.Perm (Fin 4)) (fuel : ℕ)
    (hw : 1 ≤ w) (hh : 1 ≤ h) :
    MazeGen.OpenCell (MazeGen.generate w h supply fuel) (0, 0) ∧
    MazeGen.OpenCell (MazeGen.generate w h supply fuel) (w - 1, h - 1) := by
  constructor
  · show MazeGen.generate w h supply fuel 0 0 = false
    simp only [MazeGen.generate, MazeGen.setCell]
    split
    · rfl
    · simp
  · show MazeGen.generate w h supply fuel (h - 1) (w - 1) = false
    simp only [MazeGen.generate, MazeGen.setCell]
    simp

/-- Witness for C7 at a concrete size and random source. -/
theorem C7_corners_open_witness :
    MazeGen.OpenCell (MazeGen.generate 5 4 constSupply 30) (0, 0) ∧
    MazeGen.OpenCell (MazeGen.generate 5 4 constSupply 30) (5 - 1, 4 - 1) :=
  C7_corners_open 5 4 constSupply 30 (by norm_num) (by norm_num)

/-! ## Claim C9: every carved cell is reachable from the start corner -/

/-- Claim C9: after `generate` returns, every non-wall cell except possibly the
bottom-right corner (forced open at the end) is reachable from `(0, 0)`
through 4-connected non-wall cells: the recursive carving only opens cells
connected to the cell it was called from. -/
theorem C9_carved_connected (w h : ℤ) (supply : ℕ → Equiv.Perm (Fin 4)) (fuel : ℕ)
    (hw : 1 ≤ w) (hh : 1 ≤ h) (p : Pos) (hne : p ≠ (w - 1, h - 1))
    (hopen : MazeGen.OpenCell (MazeGen.generate w h supply fuel) p) :
    MazeGen.GReach (MazeGen.generate w h supply fuel) (0, 0) p := by
  have hInv1 : MazeGen.Inv (MazeGen.setCell (fun _ _ => true) 0 0 false) := by
    intro q hq
    rcases (MazeGen.open_setCell_false_iff _ _ _ q).mp hq with heq | habs
    · have hq0 : q = ((0 : ℤ), (0 : ℤ)) := Prod.ext heq.2 heq.1
      rw [hq0]
      exact Relation.ReflTransGen.refl
    · simp [MazeGen.OpenCell] at habs
  have hInv2 : MazeGen.Inv
      (MazeGen.carvePaths w h supply fuel (MazeGen.setCell (fun _ _ => true) 0 0 false) 0 0 0).1 :=
    MazeGen.carvePaths_inv w h supply fuel _ 0 0 0 hInv1 (MazeGen.open_setCell_self _ _ _)
  simp only [MazeGen.generate] at hopen ⊢
  rcases (MazeGen.open_setCell_false_iff _ _ _ p).mp hopen with heq | hop3
  · exact absurd (Prod.ext heq.2 heq.1) hne
  · rcases (MazeGen.open_setCell_false_iff _ _ _ p).mp hop3 with heq | hop2
    · have hq0 : p = ((0 : ℤ), (0 : ℤ)) := Prod.ext heq.2 heq.1
      rw [hq0]
      exact Relation.ReflTransGen.refl
    · exact MazeGen.greach_mono
        (fun q hq => MazeGen.setCell_false_open (MazeGen.setCell_false_open hq))
        (hInv2 p hop2)

/-- Witness for C9: on a 2×1 maze nothing can be carved, and the start
cell `(0, 0)` itself is the open non-corner cell. -/
theorem C9_carved_connected_witness :
    MazeGen.GReach (MazeGen.generate 2 1 constSupply 4) (0, 0) (0, 0) :=
  C9_carved_connected 2 1 constSupply 4 (by norm_num) (by norm_num) (0, 0)
    (by decide)
    (show MazeGen.generate 2 1 constSupply 4 0 0 = false by decide)

/-! ## State-level facts about `compute_path` -/

namespace Runner

/-- Method `compute_path` installs exactly the `planned` path and resets the cursor,
leaving every other field unchanged. -/
theorem compute_path_eq (r : AlgorithmRunner) (sp gp : Pos) :
    compute_path r sp gp =
      { r with path := planned r sp gp, current_path_index := 0 } := by
  cases hl : r.loaded_algorithm with
  | false => simp [compute_path, planned, hl]
  | true =>
    cases hc : r.custom_algorithm with
    | none => simp [compute_path, planned, hl, hc]
    | some f =>
      cases hf : f r.maze sp gp with
      | ok p => simp [compute_path, planned, hl, hc, hf]
      | error e => simp [compute_path, planned, hl, hc, hf]

/-- Function `planned` reads only the fields `compute_path` never writes, so updating
the plan state does not change what would be planned next. -/
theorem planned_state_irrelevant (r : AlgorithmRunner) (P : List Pos) (n : ℕ)
    (sp gp : Pos) :
    planned { r with path := P, current_path_index := n } sp gp =
      planned r sp gp := rfl

end Runner

/-! ## Claim C8: `compute_path` is idempotent -/

/-- Claim C8: calling `compute_path` twice in succession with an unchanged
grid, start, goal and visibility state (all of which live in fields that
`compute_path` never writes) installs the same path both times — the second
call recomputes it from the same inputs and gets the same result. -/
theorem C8_compute_path_idempotent (r : Runner.AlgorithmRunner) (sp gp : Pos) :
    (Runner.compute_path (Runner.compute_path r sp gp) sp gp).path =
      (Runner.compute_path r sp gp).path := by
  rw [Runner.compute_path_eq r sp gp, Runner.compute_path_eq]
  exact Runner.planned_state_irrelevant r _ 0 sp gp

/-! ## Claim C5: a raising external solver falls back to the default, and the
binding is retained -/

/-- Claim C5: when a bound external solver raises, `compute_path` catches the
exception and installs the default algorithm's path with the cursor reset to
0, and the external binding (`loaded_algorithm`, `custom_algorithm`) is left
in place, so the next request calls the external strategy again. -/
theorem C5_exception_fallback (r : Runner.AlgorithmRunner) (sp gp : Pos)
    (f : Runner.SolveFn) (hl : r.loaded_algorithm = true)
    (hc : r.custom_algorithm = some f) (hf : f r.maze sp gp = .error ()) :
    Runner.compute_path r sp gp =
      { r with path := Runner.run_default r sp gp, current_path_index := 0 } ∧
    (Runner.compute_path r sp gp).custom_algorithm = some f ∧
    (Runner.compute_path r sp gp).loaded_algorithm = true := by
  have hcp : Runner.compute_path r sp gp =
      { r with path := Runner.run_default r sp gp, current_path_index := 0 } := by
    simp [Runner.compute_path, hl, hc, hf]
  exact ⟨hcp, by rw [hcp]; exact hc, by rw [hcp]; exact hl⟩

/-- Witness for C5 at a concrete runner bound to an always-raising solver. -/
theorem C5_exception_fallback_witness :
    (Runner.compute_path
        { runner0 with custom_algorithm := some failSolver, loaded_algorithm := true }
        (0, 0) (0, 2) =
      { { runner0 with custom_algorithm := some failSolver, loaded_algorithm := true } with
          path := Runner.run_default
            { runner0 with custom_algorithm := some failSolver, loaded_algorithm := true }
            (0, 0) (0, 2),
          current_path_index := 0 }) ∧
    (Runner.compute_path
        { runner0 with custom_algorithm := some failSolver, loaded_algorithm := true }
        (0, 0) (0, 2)).custom_algorithm = some failSolver ∧
    (Runner.compute_path
        { runner0 with custom_algorithm := some failSolver, loaded_algorithm := true }
        (0, 0) (0, 2)).loaded_algorithm = true :=
  C5_exception_fallback _ (0, 0) (0, 2) failSolver rfl rfl rfl

/-! ## Claim C6: failed loads return false; the binding is left unchanged,
not unbound -/

/-- Claim C6 counterexample: on a runner that already has an external solver
bound, a failing `load_algorithm_from_file` returns `False` but does *not*
leave the adapter unbound: the old binding stays, and the next `compute_path`
still uses the external solver (here returning its fixed jumpy path), not the
default strategy (which would return the 3-cell BFS path). -/
theorem C6_counterexample :
    (Runner.load_algorithm_from_file
        { runner0 with custom_algorithm := some jumpSolver, loaded_algorithm := true }
        .loadFail).1 = false ∧
    (Runner.load_algorithm_from_file
        { runner0 with custom_algorithm := some jumpSolver, loaded_algorithm := true }
        .loadFail).2.custom_algorithm = some jumpSolver ∧
    (Runner.load_algorithm_from_file
        { runner0 with custom_algorithm := some jumpSolver, loaded_algorithm := true }
        .loadFail).2.loaded_algorithm = true ∧
    (Runner.compute_path
        (Runner.load_algorithm_from_file
          { runner0 with custom_algorithm := some jumpSolver, loaded_algorithm := true }
          .loadFail).2 (0, 0) (0, 2)).path = [(0, 0), (9, 9)] ∧
    Runner.run_default
        { runner0 with custom_algorithm := some jumpSolver, loaded_algorithm := true }
        (0, 0) (0, 2) = [(0, 0), (0, 1), (0, 2)] := by
  refine ⟨rfl, rfl, rfl, rfl, by decide⟩

/-- Claim C6 amended: `load_algorithm_from_file` returns true and binds the
module's `solve_maze` exactly when loading succeeds and the entry point
exists; on any load error (missing entry point, syntax or load failure) it
returns false and leaves the whole runner state — in particular the previous
binding — unchanged.  (Only on a runner with no previous binding does this
mean the adapter is unbound and the default strategy stays active.) -/
theorem C6_amended (r : Runner.AlgorithmRunner) (res : Runner.LoadResult) :
    (∀ f, res = .entry f →
      Runner.load_algorithm_from_file r res =
        (true, { r with custom_algorithm := some f, loaded_algorithm := true })) ∧
    ((res = .loadFail ∨ res = .noEntry) →
      Runner.load_algorithm_from_file r res = (false, r)) := by
  constructor
  · intro f hres
    rw [hres]
    rfl
  · intro hres
    rcases hres with hres | hres <;> rw [hres] <;> rfl

/-- Witness for C6 (amended) at a concrete runner and load outcome. -/
theorem C6_amended_witness :
    (∀ f, (Runner.LoadResult.loadFail : Runner.LoadResult) = .entry f →
      Runner.load_algorithm_from_file runner0 .loadFail =
        (true, { runner0 with custom_algorithm := some f, loaded_algorithm := true })) ∧
    (((Runner.LoadResult.loadFail : Runner.LoadResult) = .loadFail ∨
        (Runner.LoadResult.loadFail : Runner.LoadResult) = .noEntry) →
      Runner.load_algorithm_from_file runner0 .loadFail = (false, runner0)) :=
  C6_amended runner0 .loadFail

/-! ## Claim C10: wall endpoints empty the default plan; external results are
not wall-checked -/

/-- Claim C10: (1) if the start or goal cell holds the wall value 1, the
default solver returns the empty path (its first check, before any search);
(2) consequently, on a fresh plan with no external solver bound,
`get_next_move` returns `None` for that request; (3) the wall check is only
on the default path: a bound external solver's result is installed verbatim,
walls or not. -/
theorem C10_wall_endpoints (mz : Runner.Maze) (w h : ℤ) (vis : List Pos)
    (vr : ℤ) (sp gp : Pos) (r : Runner.AlgorithmRunner) (cx cy : ℤ)
    (gp' : Pos) (f : Runner.SolveFn) (p : List Pos)
    (hwall : mz sp.2 sp.1 = 1 ∨ mz gp.2 gp.1 = 1) :
    Runner.default_algorithm mz w h vis vr sp gp = [] ∧
    (r.path = [] → r.loaded_algorithm = false →
      (r.maze cy cx = 1 ∨ r.maze gp'.2 gp'.1 = 1) →
      (Runner.get_next_move r cx cy gp').1 = none) ∧
    (r.loaded_algorithm = true → r.custom_algorithm = some f →
      f r.maze (cx, cy) gp' = .ok p →
      (Runner.compute_path r (cx, cy) gp').path = p) := by
  refine ⟨?_, ?_, ?_⟩
  · rw [Runner.default_algorithm, if_pos hwall]
  · intro hpath hload hwall'
    have hdef : Runner.run_default r (cx, cy) gp' = [] := by
      rw [Runner.run_default, Runner.default_algorithm, if_pos hwall']
    have hplanned : Runner.planned r (cx, cy) gp' = [] := by
      rw [Runner.planned, hload]
      exact hdef
    simp only [Runner.get_next_move]
    rw [if_pos hpath, Runner.compute_path_eq, hplanned]
    simp
  · intro hl hc hf
    rw [Runner.compute_path_eq]
    simp [Runner.planned, hl, hc, hf]

/-! ## Traces of `get_next_move`

One lemma per control path of the Python method: fresh or exhausted plans
trigger a (re)computation and fail exactly on degenerate paths; otherwise the
cursor advances. -/

namespace Runner

/-- Without a bound external solver, the planned path is the default
algorithm's. -/
theorem planned_default (r : AlgorithmRunner) (h : r.loaded_algorithm = false)
    (sp gp : Pos) : planned r sp gp = run_default r sp gp := by
  simp [planned, h]

/-- No plan, and the freshly computed plan is degenerate: `None`. -/
theorem gnm_fresh_none (r : AlgorithmRunner) (cx cy : ℤ) (gp : Pos)
    (hp : r.path = []) (hP : (planned r (cx, cy) gp).length ≤ 1) :
    get_next_move r cx cy gp =
      (none, { r with path := planned r (cx, cy) gp, current_path_index := 0 }) := by
  simp only [get_next_move, if_pos hp, compute_path_eq]
  by_cases h0 : planned r (cx, cy) gp = []
  · rw [if_pos (by simpa using h0)]
  · rw [if_neg (by simpa using h0)]
    have hlen1 : (planned r (cx, cy) gp).length = 1 := by
      have := List.length_pos.mpr h0
      omega
    rw [if_pos (by simp [hlen1])]
    rw [planned_state_irrelevant]
    rw [if_pos (by simp [hlen1])]

/-- No plan, and the freshly computed plan is usable: advance from index 0. -/
theorem gnm_fresh_step (r : AlgorithmRunner) (cx cy : ℤ) (gp : Pos)
    (hp : r.path = []) (hP : 2 ≤ (planned r (cx, cy) gp).length) :
    get_next_move r cx cy gp =
      (some (((planned r (cx, cy) gp).getD 1 (0, 0)).1 - cx,
             ((planned r (cx, cy) gp).getD 1 (0, 0)).2 - cy),
       { r with path := planned r (cx, cy) gp, current_path_index := 1 }) := by
  simp only [get_next_move, if_pos hp, compute_path_eq]
  have h0 : planned r (cx, cy) gp ≠ [] := by
    intro h; rw [h] at hP; simp at hP
  rw [if_neg (by simpa using h0)]
  rw [if_neg (by simp; omega)]
  rfl

/-- Cursor at (or past) the end of a non-empty plan, refreshed plan
degenerate: `None`. -/
theorem gnm_replan_none (r : AlgorithmRunner) (cx cy : ℤ) (gp : Pos)
    (hp : r.path ≠ []) (hend : r.path.length ≤ r.current_path_index + 1)
    (hP : (planned r (cx, cy) gp).length ≤ 1) :
    get_next_move r cx cy gp =
      (none, { r with path := planned r (cx, cy) gp, current_path_index := 0 }) := by
  simp only [get_next_move, if_neg hp]
  rw [if_pos (show r.path.length - 1 ≤ r.current_path_index by omega), compute_path_eq]
  rw [if_pos (by simpa using hP)]

/-- Cursor at (or past) the end of a non-empty plan, refreshed plan usable:
advance from index 0 of the new plan. -/
theorem gnm_replan_step (r : AlgorithmRunner) (cx cy : ℤ) (gp : Pos)
    (hp : r.path ≠ []) (hend : r.path.length ≤ r.current_path_index + 1)
    (hP : 2 ≤ (planned r (cx, cy) gp).length) :
    get_next_move r cx cy gp =
      (some (((planned r (cx, cy) gp).getD 1 (0, 0)).1 - cx,
             ((planned r (cx, cy) gp).getD 1 (0, 0)).2 - cy),
       { r with path := planned r (cx, cy) gp, current_path_index := 1 }) := by
  simp only [get_next_move, if_neg hp]
  rw [if_pos (show r.path.length - 1 ≤ r.current_path_index by omega), compute_path_eq]
  rw [if_neg (by simp; omega)]
  rfl

/-- Cursor strictly before the last index: advance along the current plan. -/
theorem gnm_advance (r : AlgorithmRunner) (cx cy : ℤ) (gp : Pos)
    (hp : r.path ≠ []) (hend : r.current_path_index + 1 < r.path.length) :
    get_next_move r cx cy gp =
      (some ((r.path.getD (r.current_path_index + 1) (0, 0)).1 - cx,
             (r.path.getD (r.current_path_index + 1) (0, 0)).2 - cy),
       { r with current_path_index := r.current_path_index + 1 }) := by
  simp only [get_next_move, if_neg hp]
  rw [if_neg (show ¬(r.path.length - 1 ≤ r.current_path_index) by omega)]
  rfl

/-- The head of a non-empty list as its 0th `getD`. -/
theorem head_getD {p : List Pos} {s : Pos} (h : p.head? = some s) :
    p.getD 0 (0, 0) = s := by
  cases p with
  | nil => simp at h
  | cons a t => simpa using (Option.some.inj h)

/-- Adjacent `getD` entries of a unit-step walk are one apart. -/
theorem chain1_getD (p : List Pos) (hc : Chain1 p) (i : ℕ)
    (hi : i + 1 < p.length) :
    manhattan (p.getD i (0, 0)) (p.getD (i + 1) (0, 0)) = 1 := by
  have hstep := List.chain'_iff_get.mp hc i (by omega)
  rw [List.getD_eq_getElem _ _ (by omega), List.getD_eq_getElem _ _ hi]
  simpa using hstep

end Runner

/-! ## Claim C4: when `next_step` returns `None` -/

/-- Claim C4: `get_next_move` returns `None` exactly when (re)planning fails to
produce a usable path: a (re)plan is triggered precisely when there is no
plan (`path = []`) or the cursor has reached the last index, and `None` comes
back precisely when the triggering condition holds and the freshly planned
path has fewer than 2 elements.  Otherwise it returns the delta to the
cursor's next position and advances the cursor by one (for a fresh plan the
cursor goes from 0 to 1). -/
theorem C4_none_exactly_on_degenerate_plan
    (r : Runner.AlgorithmRunner) (cx cy : ℤ) (gp : Pos) :
    ((Runner.get_next_move r cx cy gp).1 = none ↔
      ((r.path = [] ∨ r.path.length ≤ r.current_path_index + 1) ∧
       (Runner.planned r (cx, cy) gp).length ≤ 1)) ∧
    ((r.path = [] ∨ r.path.length ≤ r.current_path_index + 1) →
      2 ≤ (Runner.planned r (cx, cy) gp).length →
      (Runner.get_next_move r cx cy gp).1 =
        some (((Runner.planned r (cx, cy) gp).getD 1 (0, 0)).1 - cx,
              ((Runner.planned r (cx, cy) gp).getD 1 (0, 0)).2 - cy) ∧
      (Runner.get_next_move r cx cy gp).2.current_path_index = 1) ∧
    (r.path ≠ [] → r.current_path_index + 1 < r.path.length →
      (Runner.get_next_move r cx cy gp).1 =
        some ((r.path.getD (r.current_path_index + 1) (0, 0)).1 - cx,
              (r.path.getD (r.current_path_index + 1) (0, 0)).2 - cy) ∧
      (Runner.get_next_move r cx cy gp).2.current_path_index =
        r.current_path_index + 1) := by
  by_cases hp : r.path = []
  · by_cases hP : (Runner.planned r (cx, cy) gp).length ≤ 1
    · rw [Runner.gnm_fresh_none r cx cy gp hp hP]
      refine ⟨by simp [hp, hP], ?_, ?_⟩
      · intro _ h2; omega
      · intro hne _; exact absurd hp hne
    · rw [Runner.gnm_fresh_step r cx cy gp hp (by omega)]
      refine ⟨by simp [hP], ?_, ?_⟩
      · intro _ _; exact ⟨rfl, rfl⟩
      · intro hne _; exact absurd hp hne
  · by_cases hend : r.path.length ≤ r.current_path_index + 1
    · by_cases hP : (Runner.planned r (cx, cy) gp).length ≤ 1
      · rw [Runner.gnm_replan_none r cx cy gp hp hend hP]
        refine ⟨by simp [hend, hP], ?_, ?_⟩
        · intro _ h2; omega
        · intro _ hlt; omega
      · rw [Runner.gnm_replan_step r cx cy gp hp hend (by omega)]
        refine ⟨by simp [hP], ?_, ?_⟩
        · intro _ _; exact ⟨rfl, rfl⟩
        · intro _ hlt; omega
    · rw [Runner.gnm_advance r cx cy gp hp (by omega)]
      refine ⟨by simp [hp, hend], ?_, ?_⟩
      · intro hdisj _
        rcases hdisj with h | h
        · exact absurd h hp
        · omega
      · intro _ _; exact ⟨rfl, rfl⟩

/-- Witness for C4 at a concrete runner (fresh plan on the all-open 1×3
maze). -/
theorem C4_none_exactly_on_degenerate_plan_witness :
    ((Runner.get_next_move runner0 0 0 (0, 2)).1 = none ↔
      ((runner0.path = [] ∨
          runner0.path.length ≤ runner0.current_path_index + 1) ∧
       (Runner.planned runner0 (0, 0) (0, 2)).length ≤ 1)) ∧
    ((runner0.path = [] ∨
        runner0.path.length ≤ runner0.current_path_index + 1) →
      2 ≤ (Runner.planned runner0 (0, 0) (0, 2)).length →
      (Runner.get_next_move runner0 0 0 (0, 2)).1 =
        some (((Runner.planned runner0 (0, 0) (0, 2)).getD 1 (0, 0)).1 - 0,
              ((Runner.planned runner0 (0, 0) (0, 2)).getD 1 (0, 0)).2 - 0) ∧
      (Runner.get_next_move runner0 0 0 (0, 2)).2.current_path_index = 1) ∧
    (runner0.path ≠ [] → runner0.current_path_index + 1 < runner0.path.length →
      (Runner.get_next_move runner0 0 0 (0, 2)).1 =
        some ((runner0.path.getD (runner0.current_path_index + 1) (0, 0)).1 - 0,
              (runner0.path.getD (runner0.current_path_index + 1) (0, 0)).2 - 0) ∧
      (Runner.get_next_move runner0 0 0 (0, 2)).2.current_path_index =
        runner0.current_path_index + 1) :=
  C4_none_exactly_on_degenerate_plan runner0 0 0 (0, 2)

/-! ## Claim C3: the moves `get_next_move` returns -/

/-- Claim C3 counterexample: `get_next_move` computes the delta from the
caller's current position, not from the previous path cell, so when the
caller's position does not match the plan (here the plan was computed from
`(0, 0)` but the caller reports `(5, 5)`), the returned move is a multi-cell
jump `(-5, -4)`, not a unit vector. -/
theorem C3_counterexample :
    (Runner.get_next_move (Runner.compute_path runner0 (0, 0) (0, 2)) 5 5 (0, 2)).1 =
      some (-5, -4) ∧
    ¬(|(-5 : ℤ)| + |(-4 : ℤ)| = 1) := by decide

/-- A step along a unit-step plan whose cursor cell matches the caller's
position is a unit vector. -/
theorem advance_unit (r : Runner.AlgorithmRunner) (cx cy : ℤ)
    (hchain : Chain1 r.path)
    (hidx : r.current_path_index + 1 < r.path.length)
    (hcur : r.path.getD r.current_path_index (0, 0) = (cx, cy)) :
    ∃ d : ℤ × ℤ, (Runner.advance r cx cy).1 = some d ∧ |d.1| + |d.2| = 1 := by
  refine ⟨((r.path.getD (r.current_path_index + 1) (0, 0)).1 - cx,
          (r.path.getD (r.current_path_index + 1) (0, 0)).2 - cy), rfl, ?_⟩
  have h1 := Runner.chain1_getD r.path hchain r.current_path_index hidx
  rw [hcur] at h1
  simp only [manhattan] at h1
  rw [abs_sub_comm ((r.path.getD (r.current_path_index + 1) (0, 0)).1) cx,
    abs_sub_comm ((r.path.getD (r.current_path_index + 1) (0, 0)).2) cy]
  exact h1

/-- Claim C3 amended: with no external solver bound, and provided the active
plan is a unit-step walk whose cursor cell matches the caller's reported
position (both hold whenever the plan came from the runner's own planning at
the caller's position and the caller follows it), `get_next_move` returns
either `None` or a unit vector: any freshly (re)computed plan is a unit-step
walk starting at the caller's position, and mid-plan steps are unit steps of
the stored plan. -/
theorem C3_amended (r : Runner.AlgorithmRunner) (cx cy : ℤ) (gp : Pos)
    (hload : r.loaded_algorithm = false)
    (hchain : Chain1 r.path)
    (hcur : r.path ≠ [] → r.path.getD r.current_path_index (0, 0) = (cx, cy)) :
    (Runner.get_next_move r cx cy gp).1 = none ∨
      ∃ d : ℤ × ℤ, (Runner.get_next_move r cx cy gp).1 = some d ∧
        |d.1| + |d.2| = 1 := by
  have hplan : Runner.planned r (cx, cy) gp =
      Runner.run_default r (cx, cy) gp := Runner.planned_default r hload _ _
  have hsound := Runner.default_algorithm_sound r.maze r.width r.height
    r.visited_cells r.vision_range (cx, cy) gp
  by_cases hp : r.path = []
  · by_cases hP : (Runner.planned r (cx, cy) gp).length ≤ 1
    · left; rw [Runner.gnm_fresh_none r cx cy gp hp hP]
    · right
      rw [Runner.gnm_fresh_step r cx cy gp hp (by omega)]
      rcases hsound with h0 | ⟨hh, hc⟩
      · rw [Runner.run_default] at hplan
        rw [hplan, h0] at hP
        simp at hP
      · rw [Runner.run_default] at hplan
        refine ⟨_, rfl, ?_⟩
        have h1 := Runner.chain1_getD (Runner.planned r (cx, cy) gp)
          (hplan ▸ hc) 0 (by omega)
        rw [Runner.head_getD (hplan ▸ hh)] at h1
        simp only [manhattan] at h1
        rw [abs_sub_comm (((Runner.planned r (cx, cy) gp).getD 1 (0, 0)).1) cx,
          abs_sub_comm (((Runner.planned r (cx, cy) gp).getD 1 (0, 0)).2) cy]
        exact h1
  · by_cases hend : r.path.length ≤ r.current_path_index + 1
    · by_cases hP : (Runner.planned r (cx, cy) gp).length ≤ 1
      · left; rw [Runner.gnm_replan_none r cx cy gp hp hend hP]
      · right
        rw [Runner.gnm_replan_step r cx cy gp hp hend (by omega)]
        rcases hsound with h0 | ⟨hh, hc⟩
        · rw [Runner.run_default] at hplan
          rw [hplan, h0] at hP
          simp at hP
        · rw [Runner.run_default] at hplan
          refine ⟨_, rfl, ?_⟩
          have h1 := Runner.chain1_getD (Runner.planned r (cx, cy) gp)
            (hplan ▸ hc) 0 (by omega)
          rw [Runner.head_getD (hplan ▸ hh)] at h1
          simp only [manhattan] at h1
          rw [abs_sub_comm (((Runner.planned r (cx, cy) gp).getD 1 (0, 0)).1) cx,
            abs_sub_comm (((Runner.planned r (cx, cy) gp).getD 1 (0, 0)).2) cy]
          exact h1
    · right
      rw [Runner.gnm_advance r cx cy gp hp (by omega)]
      have h1 := Runner.chain1_getD r.path hchain r.current_path_index (by omega)
      rw [hcur hp] at h1
      simp only [manhattan] at h1
      refine ⟨_, rfl, ?_⟩
      rw [abs_sub_comm ((r.path.getD (r.current_path_index + 1) (0, 0)).1) cx,
        abs_sub_comm ((r.path.getD (r.current_path_index + 1) (0, 0)).2) cy]
      exact h1

/-- Witness for C3 (amended) at a concrete fresh runner. -/
theorem C3_amended_witness :
    (Runner.get_next_move runner0 0 0 (0, 2)).1 = none ∨
      ∃ d : ℤ × ℤ, (Runner.get_next_move runner0 0 0 (0, 2)).1 = some d ∧
        |d.1| + |d.2| = 1 :=
  C3_amended runner0 0 0 (0, 2) rfl (by simp [runner0, Chain1])
    (by intro h; exact absurd rfl h)

/-- Witness for C10 on the 3×1 maze, with the wall cell `(1, 0)` as start. -/
theorem C10_wall_endpoints_witness :
    Runner.default_algorithm mazeA 3 1 [] 4 (1, 0) (2, 0) = [] ∧
    (runnerA.path = [] → runnerA.loaded_algorithm = false →
      (runnerA.maze 0 1 = 1 ∨ runnerA.maze 0 2 = 1) →
      (Runner.get_next_move runnerA 1 0 (2, 0)).1 = none) ∧
    (runnerA.loaded_algorithm = true →
      runnerA.custom_algorithm = some jumpSolver →
      jumpSolver runnerA.maze (1, 0) (2, 0) = .ok [(0, 0), (9, 9)] →
      (Runner.compute_path runnerA (1, 0) (2, 0)).path = [(0, 0), (9, 9)]) :=
  C10_wall_endpoints mazeA 3 1 [] 4 (1, 0) (2, 0) runnerA 1 0 (2, 0) jumpSolver
    [(0, 0), (9, 9)] (by decide)

/-! ## Claim C1: no-path sentinels and path lengths of BFS versus A* -/

/-- Claim C1 counterexample: (a) on the 3×1 maze `[0, 1, 0]` with the goal
visible (it is in the visited set) and unreachable, the default BFS returns
the *empty* path while `a_star_search` returns the singleton `[start]` — the
two "stay" sentinels differ, and the BFS one is not a singleton; (b) on the
5×5 `mazeB` with the goal `(0, 0)` visible (visited) and reachable, BFS
returns a path of 8 cells while `a_star_search` returns one of 10 cells —
because `a_star_search` marks cells visited when they are first *generated*,
an equal-priority tie can fix a suboptimal parent, so the two lengths are not
identical. -/
theorem C1_counterexample :
    Runner.is_cell_visible [((2 : ℤ), (0 : ℤ))] 4 2 0 0 0 = true ∧
    Runner.default_algorithm mazeA 3 1 [((2 : ℤ), (0 : ℤ))] 4 (0, 0) (2, 0) = [] ∧
    ([] : List Pos) ≠ [(0, 0)] ∧
    Sample.a_star_search mazeA 3 1 (0, 0) (2, 0) = [(0, 0)] ∧
    Runner.is_cell_visible [((0 : ℤ), (0 : ℤ))] 4 0 0 3 4 = true ∧
    Runner.default_algorithm mazeB 5 5 [((0 : ℤ), (0 : ℤ))] 4 (3, 4) (0, 0) =
      [(3, 4), (2, 4), (1, 4), (1, 3), (1, 2), (1, 1), (1, 0), (0, 0)] ∧
    (Sample.a_star_search mazeB 5 5 (3, 4) (0, 0)).length = 10 ∧
    (Runner.default_algorithm mazeB 5 5 [((0 : ℤ), (0 : ℤ))] 4 (3, 4) (0, 0)).length ≠
      (Sample.a_star_search mazeB 5 5 (3, 4) (0, 0)).length := by
  decide

/-- Claim C1 amended: with a traversable in-bounds start, a non-wall goal and
the goal visible: when no traversable path connects start to goal, the
default BFS returns the *empty* path and `a_star_search` returns the
singleton `[start]`; whenever the default BFS returns a non-empty path it is
a unit-step walk from start to goal, and the A* path always begins at the
start — but the two paths need not have identical lengths (the
counterexample exhibits 8 versus 10). -/
theorem C1_amended (mz : Runner.Maze) (w h : ℤ) (vis : List Pos) (vr : ℤ)
    (sp gp : Pos)
    (hsp : Runner.bfs_ok mz w h sp = true)
    (hgp : mz gp.2 gp.1 ≠ 1)
    (hvis : Runner.is_cell_visible vis vr gp.1 gp.2 sp.1 sp.2 = true) :
    (¬ reachable_via (Runner.bfs_ok mz w h) sp gp →
      Runner.default_algorithm mz w h vis vr sp gp = [] ∧
      Sample.a_star_search mz w h sp gp = [sp]) ∧
    (Runner.default_algorithm mz w h vis vr sp gp ≠ [] →
      ((Runner.default_algorithm mz w h vis vr sp gp).head? = some sp ∧
       (Runner.default_algorithm mz w h vis vr sp gp).getLast? = some gp ∧
       Chain1 (Runner.default_algorithm mz w h vis vr sp gp))) ∧
    (Sample.a_star_search mz w h sp gp).head? = some sp := by
  have hspwall : mz sp.2 sp.1 ≠ 1 := by
    have hsp' := hsp
    simp only [Runner.bfs_ok, Bool.and_eq_true, decide_eq_true_eq] at hsp'
    exact hsp'.2
  have hwall : ¬(mz sp.2 sp.1 = 1 ∨ mz gp.2 gp.1 = 1) := by
    push_neg
    exact ⟨hspwall, hgp⟩
  have hvalid : ∀ x : Pos, Sample.is_valid_move mz w h x = Runner.bfs_ok mz w h x :=
    fun _ => rfl
  have hdef := Runner.default_algorithm_bfs mz w h vis vr sp gp hwall hvis
  have hast := Sample.a_star_search_sound mz w h sp gp
  refine ⟨?_, ?_, ?_⟩
  · intro hnr
    constructor
    · rcases hdef with h0 | ⟨h1, h2, h3, h4⟩
      · exact h0
      · exact absurd (walk_reachable _ sp gp h1 h2 h3
          (fun x hx => (h4 x hx).elim (fun he => he ▸ hsp) id)) hnr
    · rcases hast with h0 | ⟨h1, h2, h3, h4⟩
      · exact h0
      · refine absurd (walk_reachable _ sp gp h1 h2 h3 (fun x hx => ?_)) hnr
        rcases h4 x hx with he | hv
        · exact he ▸ hsp
        · exact hvalid x ▸ hv
  · intro hne
    rcases hdef with h0 | ⟨h1, h2, h3, _⟩
    · exact absurd h0 hne
    · exact ⟨h1, h2, h3⟩
  · rcases hast with h0 | ⟨h1, _, _, _⟩
    · rw [h0]; rfl
    · exact h1

/-! ## Claim C2: the frontier score -/

/-- Claim C2 counterexample: on the all-open 3×1 maze, `(1, 0)` is a frontier
cell, there are no powerups, and for start `(0, 0)` and goal `(2, 0)` the
score `explore_maze` assigns it is `0.5 × 1 + 0.2 × (1/2) = 0.6`, not the
`0.7 × 1 + 0.3 × (1/2) = 0.85` the specification's formula dictates: the
code weighs direction 0.5 and distance 0.2 (plus a powerup-proximity term
weighted 0.3), not 0.7 and 0.3. -/
theorem C2_counterexample :
    (1, 0) ∈ Sample.find_frontiers mazeZ 3 1 ∧
    Sample.find_all_powerups mazeZ 3 1 = [] ∧
    Sample.frontier_score [] (0, 0) (1, 0) (2, 0) = 3 / 5 ∧
    Sample.spec_frontier_score (0, 0) (1, 0) (2, 0) = 17 / 20 ∧
    (3 / 5 : ℝ) ≠ 17 / 20 := by
  have h4 : Real.sqrt 4 = 2 := by
    rw [show (4 : ℝ) = 2 ^ 2 by norm_num]
    exact Real.sqrt_sq (by norm_num)
  have hdir : Sample.direction_toward_goal (0, 0) (1, 0) (2, 0) = 1 := by
    simp only [Sample.direction_toward_goal]
    norm_num [h4]
  refine ⟨by decide, by decide, ?_, ?_, by norm_num⟩
  · simp only [Sample.frontier_score, hdir, Sample.manhattan_distance]
    norm_num
  · simp only [Sample.spec_frontier_score, hdir, Sample.manhattan_distance]
    norm_num

/-- Claim C2 amended: `explore_maze` scores every frontier cell as
`0.5 × direction_alignment + 0.2 × (1/(1+manhattan_distance)) +
0.3 × powerup_proximity` (with `direction_alignment` the cosine similarity
rescaled to [0, 1], and `powerup_proximity = Σ 1/(1+manhattan(frontier, p))`
over the powerups), sorts the scored frontiers in descending order, attempts
a breadth-first path to each of the top three candidates in order, and
returns the first path found (falling back to a single valid step when all
three fail).  (The runner's own `_explore_toward_goal` uses no score at all:
it sorts frontiers by ascending Manhattan distance to the goal, as its
definition states.) -/
theorem C2_amended :
    (∀ (pu : List Pos) (sp fp gp : Pos),
      Sample.frontier_score pu sp fp gp =
        0.5 * Sample.direction_toward_goal sp fp gp +
        0.2 * (1 / (((Sample.manhattan_distance sp fp : ℤ) : ℝ) + 1)) +
        0.3 * ((pu.map fun p =>
          1 / (((Sample.manhattan_distance fp p : ℤ) : ℝ) + 1)).sum)) ∧
    (∀ (m : Runner.Maze) (w h : ℤ) (sp gp : Pos),
      Sample.find_frontiers m w h ≠ [] →
      Sample.explore_maze m w h sp gp =
        (if Sample.try_scored m w h sp
            ((Sample.sort_scored ((Sample.find_frontiers m w h).map
              (fun fp => (Sample.frontier_score
                ((Sample.find_all_powerups m w h).map (·.2)) sp fp gp, fp)))).take 3) = []
         then Sample.find_any_valid_move m w h sp
         else Sample.try_scored m w h sp
            ((Sample.sort_scored ((Sample.find_frontiers m w h).map
              (fun fp => (Sample.frontier_score
                ((Sample.find_all_powerups m w h).map (·.2)) sp fp gp, fp)))).take 3))) := by
  constructor
  · intro pu sp fp gp
    simp only [Sample.frontier_score]
    ring
  · intro m w h sp gp hfr
    simp only [Sample.explore_maze]
    rw [if_neg hfr]

/-- Witness for C2 (amended), instantiating the pipeline clause on the
all-open 3×1 maze (which has frontier cells). -/
theorem C2_amended_witness :
    Sample.explore_maze mazeZ 3 1 (0, 0) (2, 0) =
      (if Sample.try_scored mazeZ 3 1 (0, 0)
          ((Sample.sort_scored ((Sample.find_frontiers mazeZ 3 1).map
            (fun fp => (Sample.frontier_score
              ((Sample.find_all_powerups mazeZ 3 1).map (·.2)) (0, 0) fp (2, 0), fp)))).take 3) = []
       then Sample.find_any_valid_move mazeZ 3 1 (0, 0)
       else Sample.try_scored mazeZ 3 1 (0, 0)
          ((Sample.sort_scored ((Sample.find_frontiers mazeZ 3 1).map
            (fun fp => (Sample.frontier_score
              ((Sample.find_all_powerups mazeZ 3 1).map (·.2)) (0, 0) fp (2, 0), fp)))).take 3)) :=
  C2_amended.2 mazeZ 3 1 (0, 0) (2, 0) (by decide)

/-- Witness for C1 (amended) on the all-open 2×1 maze. -/
theorem C1_amended_witness :
    (¬ reachable_via (Runner.bfs_ok mazeZ 2 1) (0, 0) (1, 0) →
      Runner.default_algorithm mazeZ 2 1 [] 4 (0, 0) (1, 0) = [] ∧
      Sample.a_star_search mazeZ 2 1 (0, 0) (1, 0) = [(0, 0)]) ∧
    (Runner.default_algorithm mazeZ 2 1 [] 4 (0, 0) (1, 0) ≠ [] →
      ((Runner.default_algorithm mazeZ 2 1 [] 4 (0, 0) (1, 0)).head? = some (0, 0) ∧
       (Runner.default_algorithm mazeZ 2 1 [] 4 (0, 0) (1, 0)).getLast? = some (1, 0) ∧
       Chain1 (Runner.default_algorithm mazeZ 2 1 [] 4 (0, 0) (1, 0)))) ∧
    (Sample.a_star_search mazeZ 2 1 (0, 0) (1, 0)).head? = some (0, 0) :=
  C1_amended mazeZ 2 1 [] 4 (0, 0) (1, 0) (by decide) (by decide) (by decide)

end Mazegame
